import Mathlib

/-!
Shallow embedding of the aws-secret-scanner core (the incremental, resumable,
per-branch commit-scanning engine) and proofs about it.

The embedding follows the latest iteration of the sources:
  * `ScanStateStore` (checkpoint store, `src/state/ScanStateStore.ts`),
  * `findLeaks` / `extractLine` (`src/leakMatchers.ts`),
  * `GitRepoScanner.scanBranch`, `persistOutputSnapshot`, `makeFindingKey`,
    `getBranchesToScan`, `ensureDefaultBranchCheckedOut`,
    `detectRemoteHeadBranch` (`src/git/GitRepoScanner.ts`).

Modelling conventions:
  * JS strings are Lean `String`s; where character-level scanning is needed
    (regex matching, splitting, trimming) we work on `List Char`.
  * A JS `Record<string, T>` is an ordered association list without duplicate
    keys; `obj[k] = v`, `delete obj[k]` and lookup are `setAssoc`, `delAssoc`
    and `getAssoc`.
  * The checkpoint file on disk is a `StoreFile`: `absent` (no file),
    `corrupt` (present but `JSON.parse` fails), or `valid s` (present and
    parsing to `s`).  Reading a corrupt file makes `JSON.parse` throw, which
    is modelled with `Except`.
  * Wall-clock timestamps (`new Date().toISOString()`) are passed in as an
    explicit `now : String` parameter.
  * Console output and effect ordering are recorded in ghost fields
    (`events`, `warnedResumeMissing`, `processedHashes`); they accumulate
    information about the run and never feed back into the data flow.
-/

namespace SecretScanner

/-- Lookup in a JS `Record` modelled as an association list (first match). -/
def getAssoc {α : Type} : List (String × α) → String → Option α
  | [], _ => none
  | (k', v) :: rest, k => if k' = k then some v else getAssoc rest k

/-- JS `obj[k] = v`: update the existing entry in place, else append. -/
def setAssoc {α : Type} : List (String × α) → String → α → List (String × α)
  | [], k, v => [(k, v)]
  | (k', v') :: rest, k, v =>
    if k' = k then (k, v) :: rest else (k', v') :: setAssoc rest k v

/-- JS `delete obj[k]`: remove the entry with key `k`, keep the others in order. -/
def delAssoc {α : Type} : List (String × α) → String → List (String × α)
  | [], _ => []
  | (k', v') :: rest, k =>
    if k' = k then delAssoc rest k else (k', v') :: delAssoc rest k

/-- `BranchState` of `ScanStateStore.ts`: per-branch checkpoint record. -/
structure BranchState where
  lastProcessedSha : Option String
  updatedAt : String
  incomplete : Bool
deriving DecidableEq

/-- `ScanState` of `ScanStateStore.ts`: the whole checkpoint document. -/
structure ScanState where
  branches : List (String × BranchState)
deriving DecidableEq

/-- The checkpoint file's on-disk condition: missing, unparsable, or parsed. -/
inductive StoreFile where
  | absent
  | corrupt
  | valid (s : ScanState)
deriving DecidableEq

namespace ScanStateStore

/-- `load()`: missing file yields the empty state; a present file goes through
`JSON.parse`, which throws on unparsable contents (there is no try/catch). -/
def load : StoreFile → Except Unit ScanState
  | .absent => .ok ⟨[]⟩
  | .corrupt => .error ()
  | .valid s => .ok s

/-- `getBranchState(branch)`: `load` then look the branch up. -/
def getBranchState (f : StoreFile) (branch : String) : Except Unit (Option BranchState) :=
  (load f).map fun s => getAssoc s.branches branch

/-- `saveBranchState(branch, st)`: `load`, assign, write the whole file back. -/
def saveBranchState (f : StoreFile) (branch : String) (bs : BranchState) :
    Except Unit StoreFile :=
  (load f).map fun s => .valid ⟨setAssoc s.branches branch bs⟩

/-- `clearBranchState(branch)`: `load`; if the entry exists delete it, and if
the map became empty remove the whole file (`clearAll`), otherwise write the
file back; if the entry does not exist, do nothing (no write at all). -/
def clearBranchState (f : StoreFile) (branch : String) : Except Unit StoreFile :=
  (load f).map fun s =>
    if (getAssoc s.branches branch).isSome then
      let m := delAssoc s.branches branch
      if m = [] then .absent else .valid ⟨m⟩
    else f

end ScanStateStore

/-- `saveBranchState` as a total function on files that are known to parse.
Inside a single `scanBranch` run the file is either the initially loaded one
(whose `load` already succeeded) or one written by a previous iteration, so
the `corrupt` case is unreachable there; it is mapped to itself.  The bridge
lemma `saveBranchState_eq_putBranchState` relates this to the store API. -/
def putBranchState : StoreFile → String → BranchState → StoreFile
  | .corrupt, _, _ => .corrupt
  | .absent, b, bs => .valid ⟨setAssoc [] b bs⟩
  | .valid s, b, bs => .valid ⟨setAssoc s.branches b bs⟩

/-- `clearBranchState` as a total function on files that are known to parse;
the `corrupt` case is unreachable in `scanBranch` and mapped to itself.  The
bridge lemma `clearBranchState_eq_clearBranchStateT` relates this to the
store API. -/
def clearBranchStateT : StoreFile → String → StoreFile
  | .corrupt, _ => .corrupt
  | .absent, _ => .absent
  | .valid s, b =>
    if (getAssoc s.branches b).isSome then
      let m := delAssoc s.branches b
      if m = [] then .absent else .valid ⟨m⟩
    else .valid s

/-- `LeakFinding` of `leakMatchers.ts` (latest iteration, with `branch`). -/
structure LeakFinding where
  branch : String
  commitSha : String
  committer : String
  committedDate : String
  filePath : String
  leakType : String
  leakValue : String
  linePreview : String
deriving DecidableEq

/-- `makeFindingKey`: the six identity fields joined with `"|"`. -/
def makeFindingKey (f : LeakFinding) : String :=
  f.branch ++ "|" ++ f.commitSha ++ "|" ++ f.filePath ++ "|" ++ f.leakType ++
    "|" ++ f.leakValue ++ "|" ++ f.linePreview

/-- Characters removed by JS `String.prototype.trim` (the ones that occur in
diff text: space, tab, newline, carriage return). -/
def jsWhitespaceChar (c : Char) : Bool :=
  c == ' ' || c == '\t' || c == '\n' || c == '\r'

/-- JS `s.trim()` on a character list. -/
def jsTrim (l : List Char) : List Char :=
  ((l.dropWhile jsWhitespaceChar).reverse.dropWhile jsWhitespaceChar).reverse

/-- JS `s.trim()` on a `String`. -/
def jsTrimStr (s : String) : String := String.mk (jsTrim s.toList)

/-- The file-diff boundary marker of `diffText.split(/^diff --git/m)`. -/
def diffMarker : List Char := ("diff --git").toList

/-- Worker for the multiline split: cut the text at every occurrence of
`diff --git` that stands at the start of the text or right after a newline,
removing the marker itself (JS `split` drops the separator).  The marker is
spelled out as a character pattern to keep the recursion structural. -/
def splitDiffGo : List Char → Bool → List Char → List (List Char)
  | 'd' :: 'i' :: 'f' :: 'f' :: ' ' :: '-' :: '-' :: 'g' :: 'i' :: 't' :: rest, true, cur =>
    cur.reverse :: splitDiffGo rest false []
  | c :: cs, _, cur => splitDiffGo cs (c == '\n') (c :: cur)
  | [], _, cur => [cur.reverse]

/-- `diffText.split(/^diff --git/m).filter(Boolean)`. -/
def splitDiffBlocks (s : String) : List (List Char) :=
  (splitDiffGo s.toList true []).filter (fun b => !b.isEmpty)

/-- The header marker of the `/\+\+\+ b\/(.+)\n/` file-path regex. -/
def fileMarker : List Char := ("+++ b/").toList

/-- First match of `/\+\+\+ b\/(.+)\n/` in a block: at each position, the
marker must be followed by at least one non-newline character and then a
newline; the capture is the greedy run of non-newline characters. -/
def findFilePath : List Char → Option (List Char)
  | [] => none
  | c :: cs =>
    if fileMarker.isPrefixOf (c :: cs) then
      let after := (c :: cs).drop fileMarker.length
      let cap := after.takeWhile (fun ch => ch != '\n')
      if 0 < cap.length ∧ cap.length < after.length then some cap
      else findFilePath cs
    else findFilePath cs

/-- `extractLine(block, index)`:
`block.slice(block.lastIndexOf("\n", index) + 1, block.indexOf("\n", index)).trim()`
(with `-1` from `indexOf` meaning "to the end of the block"). -/
def extractLine (block : List Char) (i : Nat) : List Char :=
  let pre := block.take (i + 1)
  let start :=
    match pre.reverse.findIdx? (fun ch => ch == '\n') with
    | some j => pre.length - j
    | none => 0
  let stop :=
    match (block.drop i).findIdx? (fun ch => ch == '\n') with
    | some j => i + j
    | none => block.length
  jsTrim ((block.take stop).drop start)

/-- One leak-detection pattern: its canonical identifier (the printed regex,
used as `leakType`) and its stateless find-all-matches function returning
(match text, start offset) pairs, exactly what the `pattern.lastIndex = 0`
plus `pattern.exec` loop produces. -/
structure LeakPattern where
  id : String
  matchAll : List Char → List (List Char × Nat)

/-- Findings produced from one diff block (the inner two loops of
`findLeaks`). -/
def findingsOfBlock (pats : List LeakPattern) (commitSha committer committedDate branch : String)
    (block : List Char) : List LeakFinding :=
  let filePath :=
    match findFilePath block with
    | some p => String.mk p
    | none => "unknown"
  pats.flatMap fun pat =>
    (pat.matchAll block).map fun m =>
      { branch := branch, commitSha := commitSha, committer := committer,
        committedDate := committedDate, filePath := filePath,
        leakType := pat.id, leakValue := String.mk m.1,
        linePreview := String.mk (extractLine block m.2) }

/-- `findLeaks(diffText, patterns, commitSha, committer, committedDate, branch)`. -/
def findLeaks (diffText : String) (pats : List LeakPattern)
    (commitSha committer committedDate branch : String) : List LeakFinding :=
  (splitDiffBlocks diffText).flatMap
    (findingsOfBlock pats commitSha committer committedDate branch)

/-- Character class `[0-9A-Z]` of the AWS access-key pattern. -/
def akiaCharOk (c : Char) : Bool :=
  ('0' ≤ c && c ≤ '9') || ('A' ≤ c && c ≤ 'Z')

/-- The literal head of `/AKIA[0-9A-Z]\x7b16\x7d/g`. -/
def akiaMarker : List Char := ("AKIA").toList

/-- Try to match `AKIA[0-9A-Z]\x7b16\x7d` at the start of `l`. -/
def akiaHere (l : List Char) : Option (List Char) :=
  if akiaMarker.isPrefixOf l then
    let body := (l.drop 4).take 16
    if body.length = 16 ∧ body.all akiaCharOk then some (akiaMarker ++ body) else none
  else none

/-- All non-overlapping matches of the AKIA pattern, leftmost first,
continuing after each match's end — the semantics of a global-flag
`exec` loop.  The extra fuel argument (initialised to the text length, an
upper bound on the number of steps) keeps the recursion structural. -/
def akiaGo : Nat → List Char → Nat → List (List Char × Nat)
  | 0, _, _ => []
  | _ + 1, [], _ => []
  | fuel + 1, c :: cs, i =>
    match akiaHere (c :: cs) with
    | some m => (m, i) :: akiaGo fuel ((c :: cs).drop 20) (i + 20)
    | none => akiaGo fuel cs (i + 1)

/-- Find-all function of the AKIA pattern. -/
def akiaMatchAll (l : List Char) : List (List Char × Nat) := akiaGo l.length l 0

/-- The configured `/AKIA[0-9A-Z]\x7b16\x7d/g` pattern of `config.ts`. -/
def akiaPat : LeakPattern :=
  { id := "/AKIA[0-9A-Z]\x7b16\x7d/g", matchAll := akiaMatchAll }

/-- One entry of `git.log` (`{sha, authorName, authorEmail, date}`). -/
structure Commit where
  hash : String
  author_name : String
  author_email : String
  date : String
deriving DecidableEq

/-- The `findLeaks` call `scanBranch` makes for one commit: the diff comes
from `git show <sha> --unified=0 --patch`, modelled by the provider function
`diffOf`. -/
def commitLeaks (pats : List LeakPattern) (diffOf : String → String) (branch : String)
    (c : Commit) : List LeakFinding :=
  findLeaks (diffOf c.hash) pats c.hash
    (c.author_name ++ " <" ++ c.author_email ++ ">") c.date branch

/-- The `outputState` object persisted to the output file after every commit. -/
structure OutputState where
  repo : String
  processedCommits : Nat
  branchPlaceholders : List (String × String)
  findings : List LeakFinding
deriving DecidableEq

/-- Ghost record of the persistence effects, in the order they happen:
every write of the output snapshot and every write of a branch checkpoint. -/
inductive Event where
  | snapshotWrite (out : OutputState)
  | checkpointWrite (branch : String) (bs : BranchState)
deriving DecidableEq

/-- The scanner's mutable state: the in-memory output snapshot, the
`findingKeySet`, the `totalProcessedCommits` counter, the checkpoint file,
and the ghost effect trace. -/
structure ScannerState where
  output : OutputState
  keySet : List String
  total : Nat
  store : StoreFile
  events : List Event
deriving DecidableEq

/-- The dedup loop of `persistOutputSnapshot`: for each new finding, skip it
if its key is already in the key set, otherwise add key and finding. -/
def dedupFold : List String → List LeakFinding → List LeakFinding →
    List String × List LeakFinding
  | ks, fs, [] => (ks, fs)
  | ks, fs, f :: rest =>
    if makeFindingKey f ∈ ks then dedupFold ks fs rest
    else dedupFold (ks ++ [makeFindingKey f]) (fs ++ [f]) rest

/-- `persistOutputSnapshot(newFindings, branch, lastSha)`: dedup-append the
new findings, update or delete the branch placeholder (an empty `branch`
string is falsy and skips that step), refresh `repo` and `processedCommits`,
and write the file (recorded as a `snapshotWrite` event). -/
def persistOutputSnapshot (repoUrl : String) (st : ScannerState)
    (newFindings : List LeakFinding) (branch : String) (lastSha : Option String) :
    ScannerState :=
  let kf := dedupFold st.keySet st.output.findings newFindings
  let bp :=
    if branch = "" then st.output.branchPlaceholders
    else
      match lastSha with
      | some sha => setAssoc st.output.branchPlaceholders branch sha
      | none => delAssoc st.output.branchPlaceholders branch
  let out : OutputState :=
    { repo := repoUrl, processedCommits := st.total, branchPlaceholders := bp,
      findings := kf.2 }
  { st with
    output := out,
    keySet := kf.1,
    events := st.events ++ [Event.snapshotWrite out] }

/-- The per-branch checkpoint written after each commit. -/
def mkCheckpoint (now : String) (c : Commit) : BranchState :=
  { lastProcessedSha := some c.hash, updatedAt := now, incomplete := true }

/-- The body of `scanBranch`'s walk for one commit: match the diff, bump the
counter, persist the snapshot, then persist the checkpoint. -/
def stepCommit (repoUrl branch now : String) (pats : List LeakPattern)
    (diffOf : String → String) (st : ScannerState) (c : Commit) : ScannerState :=
  let matchList := commitLeaks pats diffOf branch c
  let st1 := { st with total := st.total + 1 }
  let st2 := persistOutputSnapshot repoUrl st1 matchList branch (some c.hash)
  let bs := mkCheckpoint now c
  { st2 with
    store := putBranchState st2.store branch bs,
    events := st2.events ++ [Event.checkpointWrite branch bs] }

/-- Result of the walk: the local accumulators of `scanBranch`'s loop, the
internal `completedBranch` flag, the scanner state, and the ghost list of
the hashes processed this run. -/
structure WalkResult where
  processed : Nat
  lastSha : Option String
  findings : List LeakFinding
  completed : Bool
  st : ScannerState
  processedHashes : List String
deriving DecidableEq

/-- The commit loop of `scanBranch` (`for (let i = startIndex; ...)`), as a
recursion over the remaining commits: stop (capped) once `processed >= max`,
otherwise process the head commit and continue. -/
def scanBranchLoop (repoUrl branch now : String) (pats : List LeakPattern)
    (diffOf : String → String) (maxC : Nat) :
    List Commit → Nat → Option String → List LeakFinding → List String →
    ScannerState → WalkResult
  | [], processed, lastSha, acc, ph, st =>
    { processed := processed, lastSha := lastSha, findings := acc,
      completed := true, st := st, processedHashes := ph }
  | c :: rest, processed, lastSha, acc, ph, st =>
    if maxC ≤ processed then
      { processed := processed, lastSha := lastSha, findings := acc,
        completed := false, st := st, processedHashes := ph }
    else
      scanBranchLoop repoUrl branch now pats diffOf maxC rest (processed + 1)
        (some c.hash) (acc ++ commitLeaks pats diffOf branch c) (ph ++ [c.hash])
        (stepCommit repoUrl branch now pats diffOf st c)

/-- JS truthiness of an optional string (`undefined` and `""` are falsy). -/
def isTruthy (o : Option String) : Bool := o.getD "" != ""

/-- `BranchScanResult` returned by `scanBranch`, with ghost fields for the
internal `completedBranch` flag, the resume-boundary-missing warning, and
the hashes processed this run. -/
structure BranchScanResult where
  branch : String
  findings : List LeakFinding
  processedCommits : Nat
  lastSha : Option String
  completed : Bool
  warnedResumeMissing : Bool
  processedHashes : List String
deriving DecidableEq

/-- The tail of `scanBranch` after the walk: build the `BranchScanResult`
(`lastSha ?? resumeSha`), and when the branch completed, clear its checkpoint
entry, drop its placeholder from the in-memory snapshot, and flush the
snapshot one more time. -/
def scanBranchFinish (repoUrl branch : String) (resumeSha : Option String)
    (warned : Bool) (r : WalkResult) : BranchScanResult × ScannerState :=
  let res : BranchScanResult :=
    { branch := branch, findings := r.findings, processedCommits := r.processed,
      lastSha := (match r.lastSha with | some s => some s | none => resumeSha),
      completed := r.completed, warnedResumeMissing := warned,
      processedHashes := r.processedHashes }
  if r.completed then
    let stA := { r.st with store := clearBranchStateT r.st.store branch }
    let stB := { stA with output :=
      { stA.output with
        branchPlaceholders := delAssoc stA.output.branchPlaceholders branch } }
    let stC := persistOutputSnapshot repoUrl stB [] branch none
    (res, stC)
  else
    (res, r.st)

/-- The body of `scanBranch` once the checkpoint has been read: compute the
resume boundary, discard the checkpoint if force-full-scan is on, locate the
boundary in the newest-first commit list (warn and start from the top if it
is missing), walk the remaining commits bounded by the per-run cap, and
finish. -/
def scanBranchCore (repoUrl branch now : String) (forceFullScan : Bool)
    (maxCommitsPerRun : Option Nat) (pats : List LeakPattern)
    (diffOf : String → String) (log : List Commit) (st0 : ScannerState)
    (branchState : Option BranchState) : BranchScanResult × ScannerState :=
  let resumeSha : Option String :=
    match branchState with
    | some bs => if !forceFullScan && bs.incomplete then bs.lastProcessedSha else none
    | none => none
  let store1 :=
    if forceFullScan && (match branchState with
        | some bs => bs.incomplete
        | none => false) then
      clearBranchStateT st0.store branch
    else st0.store
  let idx := log.findIdx fun c => c.hash == resumeSha.getD ""
  let startIndex :=
    if isTruthy resumeSha then (if idx < log.length then idx + 1 else 0) else 0
  let warned := isTruthy resumeSha && !(decide (idx < log.length))
  let maxC := maxCommitsPerRun.getD log.length
  scanBranchFinish repoUrl branch resumeSha warned
    (scanBranchLoop repoUrl branch now pats diffOf maxC
      (log.drop startIndex) 0 resumeSha [] [] { st0 with store := store1 })

/-- `scanBranch(branch)`: read the checkpoint (this `JSON.parse` may throw),
then run the walk via `scanBranchCore`. -/
def scanBranch (repoUrl branch now : String) (forceFullScan : Bool)
    (maxCommitsPerRun : Option Nat) (pats : List LeakPattern)
    (diffOf : String → String) (log : List Commit) (st0 : ScannerState) :
    Except Unit (BranchScanResult × ScannerState) :=
  match ScanStateStore.getBranchState st0.store branch with
  | .error e => .error e
  | .ok branchState =>
    .ok (scanBranchCore repoUrl branch now forceFullScan maxCommitsPerRun pats
      diffOf log st0 branchState)

/-- The scanner state at the start of a first run (`loadExistingOutputState`
reset path: empty snapshot, empty key set, zero counter, no checkpoint file). -/
def freshScanner (repoUrl : String) : ScannerState :=
  { output := { repo := repoUrl, processedCommits := 0, branchPlaceholders := [],
                findings := [] },
    keySet := [], total := 0, store := .absent, events := [] }

/-- The scanner state of a later run (`loadExistingOutputState` parse-success
path): the snapshot is reloaded from the output file, the key set is rebuilt
from the reloaded findings, and the counter restored from `processedCommits`. -/
def reloadScanner (out : OutputState) (store : StoreFile) : ScannerState :=
  { output := out, keySet := out.findings.map makeFindingKey,
    total := out.processedCommits, store := store, events := [] }

/-- Last hash of a commit list, with a default (mirrors the running `lastSha`
variable of the walk). -/
def lastHash (ls : Option String) (l : List Commit) : Option String :=
  l.foldl (fun _ c => some c.hash) ls

/-- The checkpoint-file contents after saving a checkpoint for each commit of
`l` in order. -/
def storeFold (branch now : String) (f : StoreFile) (l : List Commit) : StoreFile :=
  l.foldl (fun g c => putBranchState g branch (mkCheckpoint now c)) f

/-- The (key set, findings) pair after dedup-appending each commit's leaks. -/
def dedupRun (pats : List LeakPattern) (diffOf : String → String) (branch : String)
    (p : List String × List LeakFinding) (l : List Commit) :
    List String × List LeakFinding :=
  l.foldl (fun q c => dedupFold q.1 q.2 (commitLeaks pats diffOf branch c)) p

/-- The prefix of a commit list up to and including the first commit whose
hash is `h` (everything, if no such commit exists). -/
def commitsThrough (h : String) : List Commit → List Commit
  | [] => []
  | c :: cs => if c.hash = h then [c] else c :: commitsThrough h cs

/-- The most recent checkpoint write in an event list. -/
def lastCheckpoint (t : List Event) : Option (String × BranchState) :=
  t.foldl
    (fun acc e =>
      match e with
      | .checkpointWrite b bs => some (b, bs)
      | _ => acc)
    none

/-- The most recent snapshot write in an event list. -/
def lastSnapshot (t : List Event) : Option OutputState :=
  t.foldl
    (fun acc e =>
      match e with
      | .snapshotWrite o => some o
      | _ => acc)
    none

/-- The event trace the walk produces from state `st` over the commits `l`:
for each commit, a snapshot write followed by a checkpoint write. -/
def traceOf (repoUrl branch now : String) (pats : List LeakPattern)
    (diffOf : String → String) (st : ScannerState) : List Commit → List Event
  | [] => []
  | c :: rest =>
    let st' := stepCommit repoUrl branch now pats diffOf st c
    Event.snapshotWrite st'.output ::
      Event.checkpointWrite branch (mkCheckpoint now c) ::
        traceOf repoUrl branch now pats diffOf st' rest

/-- Keys of the findings of all commits up to and including the one with hash
`h`, in a commit list: what a checkpoint pointing at `h` obliges the
persisted snapshot to already contain. -/
def requiredKeys (pats : List LeakPattern) (diffOf : String → String)
    (branch : String) (cs : List Commit) (h : String) : List String :=
  ((commitsThrough h cs).flatMap (commitLeaks pats diffOf branch)).map makeFindingKey

/-- Crash safety of an effect trace: at every prefix (crash point), the most
recent checkpoint write only points at a commit whose findings (and those of
all commits processed before it) are already contained in the most recent
snapshot write. -/
def SafeTrace (pats : List LeakPattern) (diffOf : String → String)
    (branch : String) (cs : List Commit) (t : List Event) : Prop :=
  ∀ p, p <+: t → ∀ b bs, lastCheckpoint p = some (b, bs) →
    ∀ h, bs.lastProcessedSha = some h →
      ∃ out, lastSnapshot p = some out ∧
        requiredKeys pats diffOf branch cs h ⊆ out.findings.map makeFindingKey

/-- Folding `persistOutputSnapshot` over a sequence of appended finding
batches, starting from a fresh snapshot: the cross-run accumulation of the
persisted findings list. -/
def appendRuns (repoUrl : String) (runs : List (List LeakFinding)) : ScannerState :=
  runs.foldl (fun st fs => persistOutputSnapshot repoUrl st fs "" none)
    (freshScanner repoUrl)

/-- Substring test (JS `includes`). -/
def containsSub (needle : List Char) : List Char → Bool
  | [] => needle.isEmpty
  | c :: cs => needle.isPrefixOf (c :: cs) || containsSub needle cs

/-- JS `s.replace(pat, "")` for a plain-string pattern: remove the first
occurrence only. -/
def removeFirstOcc (pat : List Char) : List Char → List Char
  | [] => []
  | c :: cs =>
    if pat.isPrefixOf (c :: cs) then (c :: cs).drop pat.length
    else c :: removeFirstOcc pat cs

/-- `Array.from(new Set(xs))`: keep the first occurrence of each element. -/
def dedupFirstGo (seen : List String) : List String → List String
  | [] => []
  | s :: rest =>
    if s ∈ seen then dedupFirstGo seen rest
    else s :: dedupFirstGo (seen ++ [s]) rest

/-- `getBranchesToScan()`: the explicit list if non-empty; otherwise all
remote-tracking names, trimmed, filtered (`origin/` prefix, no `->`, no
`/HEAD` suffix), stripped of `origin/`, deduplicated; `[defaultBranch]` if
that leaves nothing. -/
def getBranchesToScan (branches : List String) (defaultBranch : String)
    (remoteAll : List String) : List String :=
  if branches ≠ [] then branches
  else
    let names := remoteAll.map jsTrimStr
    let filtered := names.filter fun n =>
      ("origin/").toList.isPrefixOf n.toList &&
        !containsSub ("->").toList n.toList &&
        !(("/HEAD").toList.isSuffixOf n.toList)
    let stripped := filtered.map fun n =>
      String.mk (removeFirstOcc ("origin/").toList n.toList)
    let unique := dedupFirstGo [] stripped
    if unique ≠ [] then unique else [defaultBranch]

/-- The marker of the `/refs\/remotes\/origin\/(.+)$/` regex. -/
def headMarker : List Char := ("refs/remotes/origin/").toList

/-- First match of `/refs\/remotes\/origin\/(.+)$/`: the marker followed by a
non-empty run of characters reaching the end of the string with no newline. -/
def parseHeadRef : List Char → Option (List Char)
  | [] => none
  | c :: cs =>
    if headMarker.isPrefixOf (c :: cs) then
      let tail := (c :: cs).drop headMarker.length
      if tail ≠ [] ∧ tail.all (fun ch => ch != '\n') then some tail
      else parseHeadRef cs
    else parseHeadRef cs

/-- The external git provider as `ensureDefaultBranchCheckedOut` sees it:
whether `checkout` of a name succeeds, the raw `symbolic-ref` output for
`refs/remotes/origin/HEAD` (`none` when the command fails), and the
`branch -r` listing. -/
structure GitEnv where
  checkoutOk : String → Bool
  symbolicRef : Option String
  remoteAll : List String

/-- `detectRemoteHeadBranch()`: trim the `symbolic-ref` output and match it
against `/refs\/remotes\/origin\/(.+)$/`; any failure yields `undefined`. -/
def detectRemoteHeadBranch (env : GitEnv) : Option String :=
  env.symbolicRef.bind fun s => (parseHeadRef (jsTrim s.toList)).map String.mk

/-- How default-branch resolution can fail: an uncaught `checkout` throw, or
the final no-usable-branch error. -/
inductive ResolveError where
  | checkoutFailed (b : String)
  | noBranchAvailable
deriving DecidableEq

/-- `ensureDefaultBranchCheckedOut()`: try the preferred branch (skipped when
empty/falsy, failure caught); then the remote-HEAD branch (checkout failure
not caught); then the first entry of `getBranchesToScan` (checkout failure
not caught); otherwise the fatal no-branch error.  Returns the branch that
ends up checked out (which the code also writes back to
`repoConfig.defaultBranch`). -/
def ensureDefaultBranchCheckedOut (env : GitEnv) (preferred : String)
    (branches : List String) : Except ResolveError String :=
  if preferred ≠ "" ∧ env.checkoutOk preferred then .ok preferred
  else
    match detectRemoteHeadBranch env with
    | some h => if env.checkoutOk h then .ok h else .error (.checkoutFailed h)
    | none =>
      match getBranchesToScan branches preferred env.remoteAll with
      | [] => .error .noBranchAvailable
      | b :: _ => if env.checkoutOk b then .ok b else .error (.checkoutFailed b)

/-- The diff text of the match-extraction test case. -/
def c8Diff : String :=
  "diff --git a/config.js b/config.js\n+++ b/config.js\n@@ -1,0 +1,1 @@\n+  accessKeyId: \"AKIA1234567890TEST12\""

end SecretScanner

namespace SecretScanner

/-! ### Association-list lemmas (JS `Record` semantics) -/

theorem getAssoc_setAssoc_self {α : Type} (m : List (String × α)) (k : String) (v : α) :
    getAssoc (setAssoc m k v) k = some v := by
  induction m with
  | nil => simp [setAssoc, getAssoc]
  | cons p rest ih =>
    obtain ⟨k', v'⟩ := p
    by_cases h : k' = k
    · simp [setAssoc, getAssoc, h]
    · simp [setAssoc, getAssoc, h, ih]

theorem getAssoc_setAssoc_ne {α : Type} (m : List (String × α)) {k k2 : String}
    (v : α) (hne : k ≠ k2) : getAssoc (setAssoc m k v) k2 = getAssoc m k2 := by
  induction m with
  | nil => simp [setAssoc, getAssoc, hne]
  | cons p rest ih =>
    obtain ⟨k', v'⟩ := p
    by_cases h : k' = k
    · subst h
      simp [setAssoc, getAssoc, hne]
    · by_cases h2 : k' = k2
      · simp [setAssoc, getAssoc, h, h2, Ne.symm hne]
      · simp [setAssoc, getAssoc, h, h2, ih]

theorem getAssoc_delAssoc_self {α : Type} (m : List (String × α)) (k : String) :
    getAssoc (delAssoc m k) k = none := by
  induction m with
  | nil => simp [delAssoc, getAssoc]
  | cons p rest ih =>
    obtain ⟨k', v'⟩ := p
    by_cases h : k' = k
    · simp [delAssoc, getAssoc, h, ih]
    · simp [delAssoc, getAssoc, h, ih]

theorem getAssoc_delAssoc_ne {α : Type} (m : List (String × α)) {k k2 : String}
    (hne : k ≠ k2) : getAssoc (delAssoc m k) k2 = getAssoc m k2 := by
  induction m with
  | nil => simp [delAssoc, getAssoc]
  | cons p rest ih =>
    obtain ⟨k', v'⟩ := p
    by_cases h : k' = k
    · subst h
      simp [delAssoc, getAssoc, hne, Ne.symm hne, ih]
    · by_cases h2 : k' = k2
      · simp [delAssoc, getAssoc, h, h2, Ne.symm hne]
      · simp [delAssoc, getAssoc, h, h2, ih]

theorem delAssoc_of_getAssoc_none {α : Type} (m : List (String × α)) {k : String}
    (h : getAssoc m k = none) : delAssoc m k = m := by
  induction m with
  | nil => simp [delAssoc]
  | cons p rest ih =>
    obtain ⟨k', v'⟩ := p
    by_cases hk : k' = k
    · simp [getAssoc, hk] at h
    · simp only [getAssoc, hk, if_false] at h
      simp [delAssoc, hk, ih h]

/-! ### Checkpoint-store lemmas -/

theorem saveBranchState_eq_putBranchState (f : StoreFile) (b : String)
    (bs : BranchState) (h : f ≠ .corrupt) :
    ScanStateStore.saveBranchState f b bs = .ok (putBranchState f b bs) := by
  cases f with
  | absent => rfl
  | corrupt => exact absurd rfl h
  | valid s => rfl

theorem clearBranchState_eq_clearBranchStateT (f : StoreFile) (b : String)
    (h : f ≠ .corrupt) :
    ScanStateStore.clearBranchState f b = .ok (clearBranchStateT f b) := by
  cases f with
  | absent => rfl
  | corrupt => exact absurd rfl h
  | valid s => rfl

/-- Claim C4, counterexample: on an unparsable backing file, `load` and
`getBranchState` propagate the `JSON.parse` error instead of behaving as if
the state were empty. -/
theorem c4_counterexample_load_corrupt :
    ScanStateStore.load StoreFile.corrupt = Except.error () ∧
    ScanStateStore.getBranchState StoreFile.corrupt "main" = Except.error () ∧
    ScanStateStore.load StoreFile.corrupt ≠ Except.ok ⟨[]⟩ := by
  refine ⟨rfl, rfl, ?_⟩
  intro h
  exact Except.noConfusion h

/-- Claim C4, amended: a read on an absent backing file behaves as if the
state were empty and does not throw, and a read on a parsable file returns
its contents; but a read on an unparsable file propagates the parse error to
the caller (the store has no recovery path for corrupt contents). -/
theorem c4_amended_read_behavior :
    ScanStateStore.load StoreFile.absent = Except.ok ⟨[]⟩ ∧
    (∀ b : String, ScanStateStore.getBranchState StoreFile.absent b = Except.ok none) ∧
    (∀ s : ScanState, ScanStateStore.load (StoreFile.valid s) = Except.ok s) ∧
    ScanStateStore.load StoreFile.corrupt = Except.error () := by
  refine ⟨rfl, ?_, ?_, rfl⟩
  · intro b
    rfl
  · intro s
    rfl

/-- Claim C10: `saveBranchState` and `clearBranchState` on one branch leave
every other branch's entry unchanged, and `clearBranchState` on a branch
with no entry performs no write (the backing file is returned untouched). -/
theorem c10_store_frame :
    (∀ (f f' : StoreFile) (b1 b2 : String) (bs : BranchState), b1 ≠ b2 →
      ScanStateStore.saveBranchState f b1 bs = .ok f' →
      ScanStateStore.getBranchState f' b2 = ScanStateStore.getBranchState f b2) ∧
    (∀ (f f' : StoreFile) (b1 b2 : String), b1 ≠ b2 →
      ScanStateStore.clearBranchState f b1 = .ok f' →
      ScanStateStore.getBranchState f' b2 = ScanStateStore.getBranchState f b2) ∧
    (∀ (f : StoreFile) (b1 : String),
      ScanStateStore.getBranchState f b1 = .ok none →
      ScanStateStore.clearBranchState f b1 = .ok f) := by
  refine ⟨?_, ?_, ?_⟩
  · intro f f' b1 b2 bs hne hsave
    cases f with
    | absent =>
      simp only [ScanStateStore.saveBranchState, ScanStateStore.load, Except.map,
        Except.ok.injEq] at hsave
      subst hsave
      simp [ScanStateStore.getBranchState, ScanStateStore.load, Except.map,
        getAssoc_setAssoc_ne _ _ hne]
    | corrupt => simp [ScanStateStore.saveBranchState, ScanStateStore.load,
        Except.map] at hsave
    | valid s =>
      simp only [ScanStateStore.saveBranchState, ScanStateStore.load, Except.map,
        Except.ok.injEq] at hsave
      subst hsave
      simp [ScanStateStore.getBranchState, ScanStateStore.load, Except.map,
        getAssoc_setAssoc_ne _ _ hne]
  · intro f f' b1 b2 hne hclear
    cases f with
    | absent =>
      simp only [ScanStateStore.clearBranchState, ScanStateStore.load, Except.map,
        getAssoc, Option.isSome_none, Bool.false_eq_true, if_false,
        Except.ok.injEq] at hclear
      subst hclear
      rfl
    | corrupt => simp [ScanStateStore.clearBranchState, ScanStateStore.load,
        Except.map] at hclear
    | valid s =>
      simp only [ScanStateStore.clearBranchState, ScanStateStore.load, Except.map,
        Except.ok.injEq] at hclear
      by_cases he : (getAssoc s.branches b1).isSome
      · simp only [he, if_true] at hclear
        by_cases hm : delAssoc s.branches b1 = []
        · simp only [hm, if_true] at hclear
          subst hclear
          simp only [ScanStateStore.getBranchState, ScanStateStore.load, Except.map]
          have := @getAssoc_delAssoc_ne _ s.branches b1 b2 hne
          rw [hm] at this
          simp [getAssoc] at this
          simp [← this, getAssoc]
        · simp only [hm, if_false] at hclear
          subst hclear
          simp [ScanStateStore.getBranchState, ScanStateStore.load, Except.map,
            getAssoc_delAssoc_ne s.branches hne]
      · simp only [he, if_false] at hclear
        subst hclear
        rfl
  · intro f b1 hget
    cases f with
    | absent => rfl
    | corrupt => simp [ScanStateStore.getBranchState, ScanStateStore.load,
        Except.map] at hget
    | valid s =>
      simp only [ScanStateStore.getBranchState, ScanStateStore.load, Except.map,
        Except.ok.injEq] at hget
      simp [ScanStateStore.clearBranchState, ScanStateStore.load, Except.map, hget]

/-- Witness for C10 at concrete inputs. -/
theorem c10_store_frame_witness :
    ("feature" : String) ≠ "main" ∧
    ScanStateStore.saveBranchState
        (StoreFile.valid ⟨[("main", ⟨some "abc", "t0", true⟩)]⟩) "feature"
        ⟨some "def", "t1", true⟩ =
      .ok (StoreFile.valid
        ⟨[("main", ⟨some "abc", "t0", true⟩), ("feature", ⟨some "def", "t1", true⟩)]⟩) ∧
    ScanStateStore.getBranchState
        (StoreFile.valid
          ⟨[("main", ⟨some "abc", "t0", true⟩), ("feature", ⟨some "def", "t1", true⟩)]⟩)
        "main" =
      ScanStateStore.getBranchState
        (StoreFile.valid ⟨[("main", ⟨some "abc", "t0", true⟩)]⟩) "main" := by
  refine ⟨by decide, by rfl, ?_⟩
  exact c10_store_frame.1
    (StoreFile.valid ⟨[("main", ⟨some "abc", "t0", true⟩)]⟩)
    (StoreFile.valid
      ⟨[("main", ⟨some "abc", "t0", true⟩), ("feature", ⟨some "def", "t1", true⟩)]⟩)
    "feature" "main" ⟨some "def", "t1", true⟩ (by decide) (by rfl)

end SecretScanner

namespace SecretScanner

/-! ### LeakMatcher (claim C8) -/

/-- Claim C8: on the four-line diff with the `AKIA[0-9A-Z]\x7b16\x7d` pattern,
`findLeaks` returns exactly one finding with `filePath = "config.js"`,
`leakValue = "AKIA1234567890TEST12"` and the raw diff line as `linePreview`;
and in every diff block without a `+++ b/<path>` header line, all findings
carry the literal file path `"unknown"`. -/
theorem c8_match_extraction :
    (findLeaks c8Diff [akiaPat] "sha0" "alice <a@x>" "2024-01-01" "main" =
      [{ branch := "main", commitSha := "sha0", committer := "alice <a@x>",
         committedDate := "2024-01-01", filePath := "config.js",
         leakType := "/AKIA[0-9A-Z]\x7b16\x7d/g",
         leakValue := "AKIA1234567890TEST12",
         linePreview := "+  accessKeyId: \"AKIA1234567890TEST12\"" }]) ∧
    (∀ (diffText : String) (pats : List LeakPattern) (sha com date br : String),
      ∀ block ∈ splitDiffBlocks diffText, findFilePath block = none →
        ∀ f ∈ findingsOfBlock pats sha com date br block, f.filePath = "unknown") := by
  constructor
  · rfl
  · intro diffText pats sha com date br block _ hnone f hf
    simp only [findingsOfBlock, hnone, List.mem_flatMap, List.mem_map] at hf
    obtain ⟨pat, _, m, _, rfl⟩ := hf
    rfl

/-- Witness for C8's header-absent part at a concrete diff. -/
theorem c8_match_extraction_witness :
    ((" a/x b/x\n+AKIA1234567890TEST12").toList ∈
      splitDiffBlocks "diff --git a/x b/x\n+AKIA1234567890TEST12") ∧
    findFilePath ((" a/x b/x\n+AKIA1234567890TEST12").toList) = none ∧
    ({ branch := "b", commitSha := "s", committer := "c", committedDate := "d",
       filePath := "unknown", leakType := "/AKIA[0-9A-Z]\x7b16\x7d/g",
       leakValue := "AKIA1234567890TEST12",
       linePreview := "+AKIA1234567890TEST12" : LeakFinding} ∈
      findingsOfBlock [akiaPat] "s" "c" "d" "b" ((" a/x b/x\n+AKIA1234567890TEST12").toList)) ∧
    LeakFinding.filePath
      { branch := "b", commitSha := "s", committer := "c", committedDate := "d",
        filePath := "unknown", leakType := "/AKIA[0-9A-Z]\x7b16\x7d/g",
        leakValue := "AKIA1234567890TEST12",
        linePreview := "+AKIA1234567890TEST12" } = "unknown" := by
  refine ⟨by decide, by decide, by decide, ?_⟩
  exact c8_match_extraction.2 "diff --git a/x b/x\n+AKIA1234567890TEST12" [akiaPat]
    "s" "c" "d" "b" ((" a/x b/x\n+AKIA1234567890TEST12").toList) (by decide) (by decide)
    _ (by decide)

/-! ### BranchResolver (claim C9) -/

/-- Claim C9: default-branch resolution tries the preferred branch first, then
the remote-HEAD branch, then the first entry of the scan-branch list, and the
fatal no-branch error can only arise when all three yield nothing; in
particular, when the preferred branch fails to check out but the remote HEAD
points at a checkout-able branch X, resolution selects X without error. -/
theorem c9_default_branch_fallback :
    (∀ (env : GitEnv) (preferred : String) (branches : List String),
      preferred ≠ "" → env.checkoutOk preferred = true →
      ensureDefaultBranchCheckedOut env preferred branches = .ok preferred) ∧
    (∀ (env : GitEnv) (preferred : String) (branches : List String) (x : String),
      env.checkoutOk preferred = false →
      detectRemoteHeadBranch env = some x → env.checkoutOk x = true →
      ensureDefaultBranchCheckedOut env preferred branches = .ok x) ∧
    (∀ (env : GitEnv) (preferred : String) (branches : List String)
        (b : String) (rest : List String),
      env.checkoutOk preferred = false →
      detectRemoteHeadBranch env = none →
      getBranchesToScan branches preferred env.remoteAll = b :: rest →
      env.checkoutOk b = true →
      ensureDefaultBranchCheckedOut env preferred branches = .ok b) ∧
    (∀ (env : GitEnv) (preferred : String) (branches : List String),
      ensureDefaultBranchCheckedOut env preferred branches =
          .error ResolveError.noBranchAvailable →
      ¬(preferred ≠ "" ∧ env.checkoutOk preferred = true) ∧
      detectRemoteHeadBranch env = none ∧
      getBranchesToScan branches preferred env.remoteAll = []) := by
  refine ⟨?_, ?_, ?_, ?_⟩
  · intro env preferred branches h1 h2
    simp [ensureDefaultBranchCheckedOut, h1, h2]
  · intro env preferred branches x h1 h2 h3
    simp [ensureDefaultBranchCheckedOut, h1, h2, h3]
  · intro env preferred branches b rest h1 h2 h3 h4
    simp [ensureDefaultBranchCheckedOut, h1, h2, h3, h4]
  · intro env preferred branches hres
    rw [ensureDefaultBranchCheckedOut] at hres
    by_cases hp : preferred ≠ "" ∧ env.checkoutOk preferred = true
    · rw [if_pos hp] at hres
      exact absurd hres (by simp)
    · rw [if_neg hp] at hres
      refine ⟨hp, ?_⟩
      cases hh : detectRemoteHeadBranch env with
      | some x =>
        rw [hh] at hres
        by_cases hco : env.checkoutOk x = true <;> simp [hco] at hres
      | none =>
        rw [hh] at hres
        refine ⟨rfl, ?_⟩
        cases hb : getBranchesToScan branches preferred env.remoteAll with
        | nil => rfl
        | cons b rest =>
          rw [hb] at hres
          by_cases hco : env.checkoutOk b = true <;> simp [hco] at hres

/-- Witness for C9's remote-HEAD scenario at a concrete environment. -/
theorem c9_default_branch_fallback_witness :
    (GitEnv.checkoutOk
        ⟨fun b => b == "develop", some "refs/remotes/origin/develop\n", []⟩ "main"
      = false) ∧
    detectRemoteHeadBranch
        ⟨fun b => b == "develop", some "refs/remotes/origin/develop\n", []⟩
      = some "develop" ∧
    ensureDefaultBranchCheckedOut
        ⟨fun b => b == "develop", some "refs/remotes/origin/develop\n", []⟩
        "main" [] = .ok "develop" := by
  refine ⟨by decide, by decide, ?_⟩
  exact c9_default_branch_fallback.2.1
    ⟨fun b => b == "develop", some "refs/remotes/origin/develop\n", []⟩
    "main" [] "develop" (by decide) (by decide) (by decide)

end SecretScanner

namespace SecretScanner

/-! ### Walk lemmas: characterising `scanBranchLoop` -/

theorem findIdx_append_cons (p : Commit → Bool) (A B : List Commit) (c : Commit)
    (hA : ∀ a ∈ A, p a = false) (hc : p c = true) :
    (A ++ c :: B).findIdx p = A.length := by
  induction A with
  | nil => simp [List.findIdx_cons, hc]
  | cons a A ih =>
    have ha := hA a (by simp)
    simp [List.findIdx_cons, ha, ih (fun x hx => hA x (by simp [hx]))]

theorem findIdx_eq_length_of_false (p : Commit → Bool) (l : List Commit)
    (h : ∀ a ∈ l, p a = false) : l.findIdx p = l.length := by
  induction l with
  | nil => rfl
  | cons a l ih =>
    have ha := h a (by simp)
    simp [List.findIdx_cons, ha, ih (fun x hx => h x (by simp [hx]))]

theorem stepCommit_store (repoUrl branch now : String) (pats : List LeakPattern)
    (diffOf : String → String) (st : ScannerState) (c : Commit) :
    (stepCommit repoUrl branch now pats diffOf st c).store =
      putBranchState st.store branch (mkCheckpoint now c) := rfl

theorem stepCommit_total (repoUrl branch now : String) (pats : List LeakPattern)
    (diffOf : String → String) (st : ScannerState) (c : Commit) :
    (stepCommit repoUrl branch now pats diffOf st c).total = st.total + 1 := rfl

theorem stepCommit_keySet (repoUrl branch now : String) (pats : List LeakPattern)
    (diffOf : String → String) (st : ScannerState) (c : Commit) :
    (stepCommit repoUrl branch now pats diffOf st c).keySet =
      (dedupFold st.keySet st.output.findings (commitLeaks pats diffOf branch c)).1 := rfl

theorem stepCommit_findings (repoUrl branch now : String) (pats : List LeakPattern)
    (diffOf : String → String) (st : ScannerState) (c : Commit) :
    (stepCommit repoUrl branch now pats diffOf st c).output.findings =
      (dedupFold st.keySet st.output.findings (commitLeaks pats diffOf branch c)).2 := rfl

theorem stepCommit_events (repoUrl branch now : String) (pats : List LeakPattern)
    (diffOf : String → String) (st : ScannerState) (c : Commit) :
    (stepCommit repoUrl branch now pats diffOf st c).events =
      st.events ++
        [Event.snapshotWrite (stepCommit repoUrl branch now pats diffOf st c).output,
         Event.checkpointWrite branch (mkCheckpoint now c)] := by
  simp [stepCommit, persistOutputSnapshot]

theorem scanBranchLoop_append (repoUrl branch now : String) (pats : List LeakPattern)
    (diffOf : String → String) (maxC : Nat) (xs ys : List Commit) :
    ∀ (p : Nat) (ls : Option String) (acc : List LeakFinding) (ph : List String)
      (st : ScannerState),
      scanBranchLoop repoUrl branch now pats diffOf maxC (xs ++ ys) p ls acc ph st =
        (let r := scanBranchLoop repoUrl branch now pats diffOf maxC xs p ls acc ph st
         if r.completed then
           scanBranchLoop repoUrl branch now pats diffOf maxC ys r.processed r.lastSha
             r.findings r.processedHashes r.st
         else r) := by
  induction xs with
  | nil =>
    intro p ls acc ph st
    simp [scanBranchLoop]
  | cons c rest ih =>
    intro p ls acc ph st
    by_cases h : maxC ≤ p
    · simp [scanBranchLoop, h]
    · simp only [List.cons_append, scanBranchLoop, h, if_false]
      exact ih _ _ _ _ _

theorem scanBranchLoop_all (repoUrl branch now : String) (pats : List LeakPattern)
    (diffOf : String → String) (maxC : Nat) (cs : List Commit) :
    ∀ (p : Nat) (ls : Option String) (acc : List LeakFinding) (ph : List String)
      (st : ScannerState), p + cs.length ≤ maxC →
      scanBranchLoop repoUrl branch now pats diffOf maxC cs p ls acc ph st =
        { processed := p + cs.length,
          lastSha := lastHash ls cs,
          findings := acc ++ cs.flatMap (commitLeaks pats diffOf branch),
          completed := true,
          st := cs.foldl (stepCommit repoUrl branch now pats diffOf) st,
          processedHashes := ph ++ cs.map Commit.hash } := by
  induction cs with
  | nil =>
    intro p ls acc ph st _
    simp [scanBranchLoop, lastHash]
  | cons c rest ih =>
    intro p ls acc ph st h
    have hnot : ¬ maxC ≤ p := by
      simp only [List.length_cons] at h
      omega
    simp only [scanBranchLoop, hnot, if_false]
    rw [ih (p + 1) (some c.hash) (acc ++ commitLeaks pats diffOf branch c)
      (ph ++ [c.hash]) (stepCommit repoUrl branch now pats diffOf st c)
      (by simp only [List.length_cons] at h; omega)]
    simp only [List.length_cons, lastHash, List.foldl_cons, List.flatMap_cons,
      List.map_cons, WalkResult.mk.injEq, List.append_assoc, List.singleton_append,
      List.cons_append, and_true, true_and]
    constructor
    · omega
    · simp

theorem scanBranchLoop_run (repoUrl branch now : String) (pats : List LeakPattern)
    (diffOf : String → String) (maxC : Nat) (cs : List Commit) (ls : Option String)
    (st : ScannerState) :
    scanBranchLoop repoUrl branch now pats diffOf maxC cs 0 ls [] [] st =
      { processed := min maxC cs.length,
        lastSha := lastHash ls (cs.take maxC),
        findings := (cs.take maxC).flatMap (commitLeaks pats diffOf branch),
        completed := decide (cs.length ≤ maxC),
        st := (cs.take maxC).foldl (stepCommit repoUrl branch now pats diffOf) st,
        processedHashes := (cs.take maxC).map Commit.hash } := by
  have hsplit := List.take_append_drop maxC cs
  have hlen : (cs.take maxC).length = min maxC cs.length := List.length_take maxC cs
  calc scanBranchLoop repoUrl branch now pats diffOf maxC cs 0 ls [] [] st
      = scanBranchLoop repoUrl branch now pats diffOf maxC
          (cs.take maxC ++ cs.drop maxC) 0 ls [] [] st := by rw [hsplit]
    _ = _ := by
        rw [scanBranchLoop_append]
        rw [scanBranchLoop_all repoUrl branch now pats diffOf maxC (cs.take maxC)
          0 ls [] [] st (by omega)]
        simp only [Nat.zero_add, List.nil_append]
        cases hdrop : cs.drop maxC with
        | nil =>
          have hle : cs.length ≤ maxC := by
            have := congrArg List.length hdrop
            simp only [List.length_drop, List.length_nil] at this
            omega
          have htake : cs.take maxC = cs := List.take_of_length_le hle
          simp [scanBranchLoop, hle, htake, Nat.min_eq_right hle]
        | cons c' rest' =>
          have hgt : maxC < cs.length := by
            have := congrArg List.length hdrop
            simp only [List.length_drop, List.length_cons] at this
            omega
          have hcap : maxC ≤ min maxC cs.length := by omega
          have hnle : ¬ (cs.length ≤ maxC) := by omega
          simp only [if_true]
          simp [scanBranchLoop, hlen, Nat.min_eq_left (Nat.le_of_lt hgt), hcap, hnle]

theorem foldStep_store (repoUrl branch now : String) (pats : List LeakPattern)
    (diffOf : String → String) (l : List Commit) :
    ∀ st : ScannerState,
      (l.foldl (stepCommit repoUrl branch now pats diffOf) st).store =
        storeFold branch now st.store l := by
  induction l with
  | nil => intro st; rfl
  | cons c rest ih =>
    intro st
    simp only [List.foldl_cons, storeFold, ih, stepCommit_store]

theorem foldStep_total (repoUrl branch now : String) (pats : List LeakPattern)
    (diffOf : String → String) (l : List Commit) :
    ∀ st : ScannerState,
      (l.foldl (stepCommit repoUrl branch now pats diffOf) st).total =
        st.total + l.length := by
  induction l with
  | nil => intro st; rfl
  | cons c rest ih =>
    intro st
    simp only [List.foldl_cons, List.length_cons, ih, stepCommit_total]
    omega

theorem foldStep_dedup (repoUrl branch now : String) (pats : List LeakPattern)
    (diffOf : String → String) (l : List Commit) :
    ∀ st : ScannerState,
      ((l.foldl (stepCommit repoUrl branch now pats diffOf) st).keySet,
        (l.foldl (stepCommit repoUrl branch now pats diffOf) st).output.findings) =
        dedupRun pats diffOf branch (st.keySet, st.output.findings) l := by
  induction l with
  | nil => intro st; rfl
  | cons c rest ih =>
    intro st
    simp only [List.foldl_cons, dedupRun, ih, stepCommit_keySet, stepCommit_findings]

theorem foldStep_events (repoUrl branch now : String) (pats : List LeakPattern)
    (diffOf : String → String) (l : List Commit) :
    ∀ st : ScannerState,
      (l.foldl (stepCommit repoUrl branch now pats diffOf) st).events =
        st.events ++ traceOf repoUrl branch now pats diffOf st l := by
  induction l with
  | nil => intro st; simp [traceOf]
  | cons c rest ih =>
    intro st
    simp only [List.foldl_cons, traceOf, ih, stepCommit_events]
    simp

end SecretScanner

namespace SecretScanner

theorem isTruthy_some_of_ne {s : String} (h : s ≠ "") : isTruthy (some s) = true := by
  simp [isTruthy, h]

/-- Claim C1: with force-full-scan off and an incomplete checkpoint whose
`lastProcessedSha` occurs in the newest-first commit list at position `i`,
`scanBranch` skips all commits up to and including position `i` and processes
exactly the commits after it (bounded by the per-run cap); with no cap
configured it processes exactly all commits after the boundary. -/
theorem c1_resume_boundary_skip
    (repoUrl branch now sha t0 : String) (maxCommitsPerRun : Option Nat)
    (pats : List LeakPattern) (diffOf : String → String) (log : List Commit)
    (st0 : ScannerState) (i : Nat)
    (hget : ScanStateStore.getBranchState st0.store branch =
      .ok (some ⟨some sha, t0, true⟩))
    (hsha : sha ≠ "")
    (hidx : log.findIdx (fun c => c.hash == sha) = i)
    (hlt : i < log.length) :
    (scanBranch repoUrl branch now false maxCommitsPerRun pats diffOf log st0).map
        (fun p => p.1.processedHashes) =
      .ok (((log.drop (i + 1)).take (maxCommitsPerRun.getD log.length)).map
        Commit.hash) ∧
    (maxCommitsPerRun = none →
      (scanBranch repoUrl branch now false maxCommitsPerRun pats diffOf log st0).map
          (fun p => p.1.processedHashes) =
        .ok ((log.drop (i + 1)).map Commit.hash)) := by
  have hmain : (scanBranch repoUrl branch now false maxCommitsPerRun pats diffOf
      log st0).map (fun p => p.1.processedHashes) =
      .ok (((log.drop (i + 1)).take (maxCommitsPerRun.getD log.length)).map
        Commit.hash) := by
    simp only [scanBranch, hget, scanBranchCore]
    simp only [Bool.not_false, Bool.true_and, Option.getD_some, hidx,
      isTruthy_some_of_ne hsha, hlt, if_true, Bool.and_eq_true]
    rw [scanBranchLoop_run]
    cases hc : decide (((log.drop (i + 1)).length ≤ maxCommitsPerRun.getD log.length)) with
    | true => simp [hc, Except.map, scanBranchFinish]
    | false => simp [hc, Except.map, scanBranchFinish]
  refine ⟨hmain, ?_⟩
  intro hnone
  subst hnone
  rw [hmain]
  have hle : (log.drop (i + 1)).length ≤ (none : Option Nat).getD log.length := by
    simp [List.length_drop]
  rw [List.take_of_length_le hle]

/-- Claim C6: with force-full-scan off and an incomplete checkpoint whose
`lastProcessedSha` is absent from the commit list, `scanBranch` does not
abort: it emits the resume-boundary-missing warning and scans the branch from
the newest commit, processing every commit up to the per-run cap. -/
theorem c6_resume_missing_recovery
    (repoUrl branch now sha t0 : String) (maxCommitsPerRun : Option Nat)
    (pats : List LeakPattern) (diffOf : String → String) (log : List Commit)
    (st0 : ScannerState)
    (hget : ScanStateStore.getBranchState st0.store branch =
      .ok (some ⟨some sha, t0, true⟩))
    (hsha : sha ≠ "")
    (hnotin : ∀ c ∈ log, c.hash ≠ sha) :
    (scanBranch repoUrl branch now false maxCommitsPerRun pats diffOf log st0).map
        (fun p => (p.1.warnedResumeMissing, p.1.processedHashes)) =
      .ok (true, ((log.take (maxCommitsPerRun.getD log.length)).map Commit.hash)) := by
  have hfind : log.findIdx (fun c => c.hash == sha) = log.length := by
    refine findIdx_eq_length_of_false _ _ ?_
    intro a ha
    simp [hnotin a ha]
  simp only [scanBranch, hget, scanBranchCore]
  simp only [Bool.not_false, Bool.true_and, if_true, Option.getD_some, hfind,
    isTruthy_some_of_ne hsha, lt_irrefl, if_false, Bool.and_eq_true]
  rw [List.drop_zero, scanBranchLoop_run]
  cases hc : decide ((log.length ≤ maxCommitsPerRun.getD log.length)) with
  | true => simp [hc, Except.map, isTruthy_some_of_ne hsha, scanBranchFinish]
  | false => simp [hc, Except.map, isTruthy_some_of_ne hsha, scanBranchFinish]

end SecretScanner

namespace SecretScanner

/-! ### Store lifecycle lemmas (claim C5) -/

theorem persistOutputSnapshot_store (repoUrl : String) (st : ScannerState)
    (fs : List LeakFinding) (b : String) (ls : Option String) :
    (persistOutputSnapshot repoUrl st fs b ls).store = st.store := rfl

theorem setAssoc_ne_nil {α : Type} (m : List (String × α)) (k : String) (v : α) :
    setAssoc m k v ≠ [] := by
  cases m with
  | nil => simp [setAssoc]
  | cons p rest =>
    obtain ⟨k', v'⟩ := p
    by_cases h : k' = k <;> simp [setAssoc, h]

/-- Well-formed checkpoint file: parsable, and never an empty-map file. -/
def WfStore (f : StoreFile) : Prop := f ≠ .corrupt ∧ f ≠ .valid ⟨[]⟩

theorem wfStore_putBranchState {f : StoreFile} (b : String) (bs : BranchState)
    (h : f ≠ .corrupt) : WfStore (putBranchState f b bs) := by
  cases f with
  | corrupt => exact absurd rfl h
  | absent =>
    refine ⟨by simp [putBranchState], ?_⟩
    simp only [putBranchState, ne_eq, StoreFile.valid.injEq, ScanState.mk.injEq]
    exact setAssoc_ne_nil [] b bs
  | valid s =>
    refine ⟨by simp [putBranchState], ?_⟩
    simp only [putBranchState, ne_eq, StoreFile.valid.injEq, ScanState.mk.injEq]
    exact setAssoc_ne_nil s.branches b bs

theorem wfStore_clearBranchStateT {f : StoreFile} (b : String) (h : WfStore f) :
    WfStore (clearBranchStateT f b) := by
  cases f with
  | corrupt => exact absurd rfl h.1
  | absent => exact ⟨by simp [clearBranchStateT], by simp [clearBranchStateT]⟩
  | valid s =>
    simp only [clearBranchStateT]
    by_cases he : (getAssoc s.branches b).isSome
    · simp only [he, if_true]
      by_cases hm : delAssoc s.branches b = []
      · simp [hm]
        exact ⟨by simp, by simp⟩
      · simp only [hm, if_false]
        refine ⟨by simp, ?_⟩
        simp only [ne_eq, StoreFile.valid.injEq, ScanState.mk.injEq]
        exact hm
    · simp only [he, if_false]
      exact h

theorem storeFold_ne_corrupt (branch now : String) (l : List Commit) :
    ∀ {f : StoreFile}, f ≠ .corrupt → storeFold branch now f l ≠ .corrupt := by
  induction l with
  | nil => intro f h; exact h
  | cons c rest ih =>
    intro f h
    unfold storeFold
    simp only [List.foldl_cons]
    exact ih (wfStore_putBranchState branch (mkCheckpoint now c) h).1

theorem wfStore_storeFold (branch now : String) (l : List Commit) :
    ∀ {f : StoreFile}, WfStore f → WfStore (storeFold branch now f l) := by
  induction l with
  | nil => intro f h; exact h
  | cons c rest ih =>
    intro f h
    unfold storeFold
    simp only [List.foldl_cons]
    exact ih (wfStore_putBranchState branch (mkCheckpoint now c) h.1)

theorem clearBranchStateT_getBranch (f : StoreFile) (b : String)
    (h : f ≠ .corrupt) :
    ScanStateStore.getBranchState (clearBranchStateT f b) b = .ok none := by
  cases f with
  | corrupt => exact absurd rfl h
  | absent => rfl
  | valid s =>
    simp only [clearBranchStateT]
    by_cases he : (getAssoc s.branches b).isSome
    · simp only [he, if_true]
      by_cases hm : delAssoc s.branches b = []
      · simp [hm]
        rfl
      · simp only [hm, if_false]
        simp [ScanStateStore.getBranchState, ScanStateStore.load, Except.map,
          getAssoc_delAssoc_self]
    · simp only [he, if_false]
      simp only [Option.isSome_iff_ne_none, ne_eq, not_not] at he
      simp [ScanStateStore.getBranchState, ScanStateStore.load, Except.map, he]

theorem storeFold_last (branch now : String) (f : StoreFile) (l : List Commit)
    (c : Commit) (h : f ≠ .corrupt) :
    ScanStateStore.getBranchState (storeFold branch now f (l ++ [c])) branch =
      .ok (some (mkCheckpoint now c)) := by
  unfold storeFold
  rw [List.foldl_append]
  have hnc : l.foldl (fun g c => putBranchState g branch (mkCheckpoint now c)) f ≠
      .corrupt := storeFold_ne_corrupt branch now l h
  cases hg : l.foldl (fun g c => putBranchState g branch (mkCheckpoint now c)) f with
  | corrupt => exact absurd hg hnc
  | absent =>
    simp [putBranchState, ScanStateStore.getBranchState, ScanStateStore.load,
      Except.map, getAssoc_setAssoc_self]
  | valid s =>
    simp [putBranchState, ScanStateStore.getBranchState, ScanStateStore.load,
      Except.map, getAssoc_setAssoc_self]

theorem finishRun_lifecycle (repoUrl branch now : String) (pats : List LeakPattern)
    (diffOf : String → String) (maxC : Nat) (D : List Commit)
    (resume : Option String) (warned : Bool) (st1 : ScannerState)
    (hwf : WfStore st1.store) (hmax : D.length ≤ maxC ∨ 1 ≤ maxC) :
    ((scanBranchFinish repoUrl branch resume warned
        (scanBranchLoop repoUrl branch now pats diffOf maxC D 0 resume [] []
          st1)).1.completed = true →
      ScanStateStore.getBranchState
          (scanBranchFinish repoUrl branch resume warned
            (scanBranchLoop repoUrl branch now pats diffOf maxC D 0 resume [] []
              st1)).2.store branch = .ok none ∧
      ∀ s, (scanBranchFinish repoUrl branch resume warned
          (scanBranchLoop repoUrl branch now pats diffOf maxC D 0 resume [] []
            st1)).2.store = .valid s → s.branches ≠ []) ∧
    ((scanBranchFinish repoUrl branch resume warned
        (scanBranchLoop repoUrl branch now pats diffOf maxC D 0 resume [] []
          st1)).1.completed = false →
      ∃ pre h, (scanBranchFinish repoUrl branch resume warned
          (scanBranchLoop repoUrl branch now pats diffOf maxC D 0 resume [] []
            st1)).1.processedHashes = pre ++ [h] ∧
        ScanStateStore.getBranchState
            (scanBranchFinish repoUrl branch resume warned
              (scanBranchLoop repoUrl branch now pats diffOf maxC D 0 resume [] []
                st1)).2.store branch =
          .ok (some {
            lastProcessedSha := some h,
            updatedAt := now,
            incomplete := true })) := by
  rw [scanBranchLoop_run]
  cases hb : decide (D.length ≤ maxC) with
  | true =>
    simp only [hb, scanBranchFinish, eq_self_iff_true, if_true]
    constructor
    · intro _
      rw [persistOutputSnapshot_store]
      dsimp only
      rw [foldStep_store]
      refine ⟨clearBranchStateT_getBranch _ branch
        (storeFold_ne_corrupt branch now _ hwf.1), ?_⟩
      intro s hs hnil
      have hwfc : WfStore (clearBranchStateT
          (storeFold branch now st1.store (D.take maxC)) branch) :=
        wfStore_clearBranchStateT branch (wfStore_storeFold branch now _ hwf)
      apply hwfc.2
      rw [hs]
      obtain ⟨sb⟩ := s
      simp only at hnil
      subst hnil
      rfl
    · intro hfalse
      simp at hfalse
  | false =>
    have hD : ¬ (D.length ≤ maxC) := by
      intro hcontra
      rw [decide_eq_true hcontra] at hb
      cases hb
    simp only [hb, scanBranchFinish, Bool.false_eq_true, if_false]
    constructor
    · intro htrue
      simp at htrue
    · intro _
      have hcap : 1 ≤ maxC := by
        rcases hmax with hmax | hmax
        · exact absurd hmax hD
        · exact hmax
      have hlen : (D.take maxC).length = maxC := by
        rw [List.length_take]
        omega
      have hne : D.take maxC ≠ [] := by
        intro hnil
        rw [hnil] at hlen
        simp at hlen
        omega
      refine ⟨((D.take maxC).dropLast).map Commit.hash,
        ((D.take maxC).getLast hne).hash, ?_, ?_⟩
      · conv =>
          lhs
          rw [← List.dropLast_append_getLast hne]
        simp
      · rw [foldStep_store]
        have hlast := storeFold_last branch now st1.store ((D.take maxC).dropLast)
          ((D.take maxC).getLast hne) hwf.1
        rw [List.dropLast_append_getLast hne] at hlast
        rw [hlast]
        rfl

end SecretScanner

namespace SecretScanner

theorem scanBranchCore_lifecycle (repoUrl branch now : String) (force : Bool)
    (maxCommitsPerRun : Option Nat) (pats : List LeakPattern)
    (diffOf : String → String) (log : List Commit) (st0 : ScannerState)
    (bsOpt : Option BranchState)
    (hwf1 : st0.store ≠ .corrupt) (hwf2 : st0.store ≠ .valid ⟨[]⟩)
    (hcap : ∀ n, maxCommitsPerRun = some n → 1 ≤ n) :
    ((scanBranchCore repoUrl branch now force maxCommitsPerRun pats diffOf log st0
        bsOpt).1.completed = true →
      ScanStateStore.getBranchState
          (scanBranchCore repoUrl branch now force maxCommitsPerRun pats diffOf log
            st0 bsOpt).2.store branch = .ok none ∧
      ∀ s, (scanBranchCore repoUrl branch now force maxCommitsPerRun pats diffOf log
          st0 bsOpt).2.store = .valid s → s.branches ≠ []) ∧
    ((scanBranchCore repoUrl branch now force maxCommitsPerRun pats diffOf log st0
        bsOpt).1.completed = false →
      ∃ pre h, (scanBranchCore repoUrl branch now force maxCommitsPerRun pats diffOf
          log st0 bsOpt).1.processedHashes = pre ++ [h] ∧
        ScanStateStore.getBranchState
            (scanBranchCore repoUrl branch now force maxCommitsPerRun pats diffOf log
              st0 bsOpt).2.store branch =
          .ok (some {
            lastProcessedSha := some h,
            updatedAt := now,
            incomplete := true })) := by
  simp only [scanBranchCore]
  cases hcnd : (force && (match bsOpt with
      | some bs => bs.incomplete
      | none => false)) with
  | true =>
    simp only [eq_self_iff_true, if_true]
    refine finishRun_lifecycle repoUrl branch now pats diffOf _ _ _ _ _ ?_ ?_
    · exact wfStore_clearBranchStateT branch ⟨hwf1, hwf2⟩
    · cases maxCommitsPerRun with
      | none =>
        left
        simp only [Option.getD_none, List.length_drop]
        omega
      | some n =>
        right
        simpa using hcap n rfl
  | false =>
    simp only [Bool.false_eq_true, if_false]
    refine finishRun_lifecycle repoUrl branch now pats diffOf _ _ _ _ _ ?_ ?_
    · exact ⟨hwf1, hwf2⟩
    · cases maxCommitsPerRun with
      | none =>
        left
        simp only [Option.getD_none, List.length_drop]
        omega
      | some n =>
        right
        simpa using hcap n rfl

/-- Claim C5, counterexample: with a per-run cap of 0 (which survives the
`maxCommitsPerRun ?? log.total` nullish-coalescing), a fresh branch with one
commit is Capped (`completedBranch = false`) with zero commits processed, yet
no checkpoint entry exists for it — contradicting "Capped implies an entry
with `lastProcessedSha` equal to the last commit actually processed". -/
theorem c5_counterexample_cap_zero :
    (scanBranch "r" "b" "t" false (some 0) [] (fun _ => "")
        [⟨"c1", "a", "e", "d"⟩]
        (freshScanner "r")).map
        (fun p => (p.1.completed, p.1.processedCommits,
          ScanStateStore.getBranchState p.2.store "b")) =
      .ok (false, 0, .ok none) := rfl

/-- Claim C5, amended: provided the configured per-run cap (when present) is
at least 1 and the checkpoint file is parsable and not an empty-map file:
after `scanBranch` resolves, if the walk completed (Exhausted) the branch's
entry is absent and the store is never left as an empty-map file (deleting
the last entry deletes the file); if the walk stopped at the cap (Capped),
the entry is present with `incomplete = true` and `lastProcessedSha` equal to
the hash of the last commit actually processed this run. -/
theorem c5_amended_checkpoint_lifecycle (repoUrl branch now : String)
    (force : Bool) (maxCommitsPerRun : Option Nat) (pats : List LeakPattern)
    (diffOf : String → String) (log : List Commit) (st0 : ScannerState)
    (hwf1 : st0.store ≠ .corrupt) (hwf2 : st0.store ≠ .valid ⟨[]⟩)
    (hcap : ∀ n, maxCommitsPerRun = some n → 1 ≤ n) :
    ∃ res st',
      scanBranch repoUrl branch now force maxCommitsPerRun pats diffOf log st0 =
        .ok (res, st') ∧
      (res.completed = true →
        ScanStateStore.getBranchState st'.store branch = .ok none ∧
        ∀ s, st'.store = .valid s → s.branches ≠ []) ∧
      (res.completed = false →
        ∃ pre h, res.processedHashes = pre ++ [h] ∧
          ScanStateStore.getBranchState st'.store branch =
            .ok (some {
              lastProcessedSha := some h,
              updatedAt := now,
              incomplete := true })) := by
  have hget : ∃ bsOpt, ScanStateStore.getBranchState st0.store branch =
      .ok bsOpt := by
    cases hs : st0.store with
    | corrupt => exact absurd hs hwf1
    | absent => exact ⟨getAssoc [] branch, rfl⟩
    | valid s => exact ⟨getAssoc s.branches branch, rfl⟩
  obtain ⟨bsOpt, hget⟩ := hget
  refine ⟨(scanBranchCore repoUrl branch now force maxCommitsPerRun pats diffOf log
      st0 bsOpt).1,
    (scanBranchCore repoUrl branch now force maxCommitsPerRun pats diffOf log st0
      bsOpt).2, ?_, ?_, ?_⟩
  · simp only [scanBranch, hget]
  · exact (scanBranchCore_lifecycle repoUrl branch now force maxCommitsPerRun pats
      diffOf log st0 bsOpt hwf1 hwf2 hcap).1
  · exact (scanBranchCore_lifecycle repoUrl branch now force maxCommitsPerRun pats
      diffOf log st0 bsOpt hwf1 hwf2 hcap).2

/-- Witness for C5 (amended) at a concrete capped run: two commits, cap 1. -/
theorem c5_amended_checkpoint_lifecycle_witness :
    (StoreFile.absent ≠ StoreFile.corrupt) ∧
    (StoreFile.absent ≠ StoreFile.valid ⟨[]⟩) ∧
    (∀ n, (some 1 : Option Nat) = some n → 1 ≤ n) ∧
    (∃ res st',
      scanBranch "r" "b" "t" false (some 1) [] (fun _ => "")
          [⟨"c1", "a", "e", "d"⟩, ⟨"c2", "a", "e", "d"⟩]
          (freshScanner "r") = .ok (res, st') ∧
      (res.completed = true →
        ScanStateStore.getBranchState st'.store "b" = .ok none ∧
        ∀ s, st'.store = .valid s → s.branches ≠ []) ∧
      (res.completed = false →
        ∃ pre h, res.processedHashes = pre ++ [h] ∧
          ScanStateStore.getBranchState st'.store "b" =
            .ok (some {
              lastProcessedSha := some h,
              updatedAt := "t",
              incomplete := true }))) := by
  refine ⟨by decide, by decide, ?_, ?_⟩
  · intro n hn
    cases hn
    exact le_refl 1
  · exact c5_amended_checkpoint_lifecycle "r" "b" "t" false (some 1) []
      (fun _ => "")
      [⟨"c1", "a", "e", "d"⟩, ⟨"c2", "a", "e", "d"⟩]
      (freshScanner "r") (by decide) (by decide)
      (fun n hn => by cases hn; exact le_refl 1)

/-- Witness for C1 at a concrete three-commit log resumed from the middle. -/
theorem c1_resume_boundary_skip_witness :
    (ScanStateStore.getBranchState
        (StoreFile.valid ⟨[("b", ⟨some "h2", "t0", true⟩)]⟩) "b" =
      .ok (some ⟨some "h2", "t0", true⟩)) ∧
    (("h2" : String) ≠ "") ∧
    (List.findIdx (fun c => c.hash == "h2")
        ([⟨"h1", "a", "e", "d"⟩, ⟨"h2", "a", "e", "d"⟩, ⟨"h3", "a", "e", "d"⟩] :
          List Commit) = 1) ∧
    (1 < 3) ∧
    ((scanBranch "r" "b" "t" false none [] (fun _ => "")
        [⟨"h1", "a", "e", "d"⟩, ⟨"h2", "a", "e", "d"⟩, ⟨"h3", "a", "e", "d"⟩]
        { freshScanner "r" with
          store := StoreFile.valid ⟨[("b", ⟨some "h2", "t0", true⟩)]⟩ }).map
        (fun p => p.1.processedHashes) = .ok ["h3"]) := by
  refine ⟨rfl, by decide, by decide, by decide, ?_⟩
  exact (c1_resume_boundary_skip "r" "b" "t" "h2" "t0" none [] (fun _ => "")
    [⟨"h1", "a", "e", "d"⟩, ⟨"h2", "a", "e", "d"⟩, ⟨"h3", "a", "e", "d"⟩]
    { freshScanner "r" with
      store := StoreFile.valid ⟨[("b", ⟨some "h2", "t0", true⟩)]⟩ } 1
    rfl (by decide) (by decide) (by decide)).1

/-- Witness for C6 at a one-commit log with a vanished checkpoint SHA. -/
theorem c6_resume_missing_recovery_witness :
    (ScanStateStore.getBranchState
        (StoreFile.valid ⟨[("b", ⟨some "zz", "t0", true⟩)]⟩) "b" =
      .ok (some ⟨some "zz", "t0", true⟩)) ∧
    (("zz" : String) ≠ "") ∧
    (∀ c ∈ ([⟨"h1", "a", "e", "d"⟩] : List Commit), c.hash ≠ "zz") ∧
    ((scanBranch "r" "b" "t" false none [] (fun _ => "")
        [⟨"h1", "a", "e", "d"⟩]
        { freshScanner "r" with
          store := StoreFile.valid ⟨[("b", ⟨some "zz", "t0", true⟩)]⟩ }).map
        (fun p => (p.1.warnedResumeMissing, p.1.processedHashes)) =
      .ok (true, ["h1"])) := by
  refine ⟨rfl, by decide, by decide, ?_⟩
  exact c6_resume_missing_recovery "r" "b" "t" "zz" "t0" none [] (fun _ => "")
    [⟨"h1", "a", "e", "d"⟩]
    { freshScanner "r" with
      store := StoreFile.valid ⟨[("b", ⟨some "zz", "t0", true⟩)]⟩ }
    rfl (by decide) (by decide)

end SecretScanner

namespace SecretScanner

/-! ### Dedup lemmas (claim C2) -/

theorem persistOutputSnapshot_keySet (repoUrl : String) (st : ScannerState)
    (fs : List LeakFinding) (b : String) (ls : Option String) :
    (persistOutputSnapshot repoUrl st fs b ls).keySet =
      (dedupFold st.keySet st.output.findings fs).1 := rfl

theorem persistOutputSnapshot_findings (repoUrl : String) (st : ScannerState)
    (fs : List LeakFinding) (b : String) (ls : Option String) :
    (persistOutputSnapshot repoUrl st fs b ls).output.findings =
      (dedupFold st.keySet st.output.findings fs).2 := rfl

theorem dedupFold_inv (new : List LeakFinding) :
    ∀ (ks : List String) (fs : List LeakFinding),
      ks = fs.map makeFindingKey →
      (dedupFold ks fs new).1 = (dedupFold ks fs new).2.map makeFindingKey := by
  induction new with
  | nil => intro ks fs h; exact h
  | cons f rest ih =>
    intro ks fs h
    by_cases hk : makeFindingKey f ∈ ks
    · simp only [dedupFold, hk, if_true]
      exact ih ks fs h
    · simp only [dedupFold, hk, if_false]
      exact ih _ _ (by rw [h]; simp)

theorem dedupFold_nodup (new : List LeakFinding) :
    ∀ (ks : List String) (fs : List LeakFinding), ks.Nodup →
      (dedupFold ks fs new).1.Nodup := by
  induction new with
  | nil => intro ks fs h; exact h
  | cons f rest ih =>
    intro ks fs h
    by_cases hk : makeFindingKey f ∈ ks
    · simp only [dedupFold, hk, if_true]
      exact ih ks fs h
    · simp only [dedupFold, hk, if_false]
      refine ih _ _ ?_
      rw [List.nodup_append]
      exact ⟨h, List.nodup_singleton _, List.disjoint_singleton.mpr hk⟩

theorem dedupFold_mem (new : List LeakFinding) :
    ∀ (ks : List String) (fs : List LeakFinding) (k : String),
      k ∈ (dedupFold ks fs new).1 ↔ k ∈ ks ∨ k ∈ new.map makeFindingKey := by
  induction new with
  | nil => intro ks fs k; simp [dedupFold]
  | cons f rest ih =>
    intro ks fs k
    by_cases hk : makeFindingKey f ∈ ks
    · simp only [dedupFold, hk, if_true]
      rw [ih]
      simp only [List.map_cons, List.mem_cons]
      constructor
      · rintro (h | h)
        · exact Or.inl h
        · exact Or.inr (Or.inr h)
      · rintro (h | h | h)
        · exact Or.inl h
        · exact Or.inl (h ▸ hk)
        · exact Or.inr h
    · simp only [dedupFold, hk, if_false]
      rw [ih]
      simp only [List.mem_append, List.mem_singleton, List.map_cons, List.mem_cons]
      tauto

theorem appendRunsAux_spec (repoUrl : String) (runs : List (List LeakFinding)) :
    ∀ st : ScannerState,
      st.keySet = st.output.findings.map makeFindingKey → st.keySet.Nodup →
      ((runs.foldl (fun st fs => persistOutputSnapshot repoUrl st fs "" none)
          st).keySet =
        (runs.foldl (fun st fs => persistOutputSnapshot repoUrl st fs "" none)
          st).output.findings.map makeFindingKey) ∧
      (runs.foldl (fun st fs => persistOutputSnapshot repoUrl st fs "" none)
        st).keySet.Nodup ∧
      ∀ k, (k ∈ (runs.foldl (fun st fs => persistOutputSnapshot repoUrl st fs ""
          none) st).keySet ↔
        k ∈ st.keySet ∨ ∃ b ∈ runs, ∃ f ∈ b, makeFindingKey f = k) := by
  induction runs with
  | nil =>
    intro st h1 h2
    exact ⟨h1, h2, fun k => by simp⟩
  | cons b rest ih =>
    intro st h1 h2
    simp only [List.foldl_cons]
    obtain ⟨ih1, ih2, ih3⟩ := ih (persistOutputSnapshot repoUrl st b "" none)
      (by rw [persistOutputSnapshot_keySet, persistOutputSnapshot_findings]
          exact dedupFold_inv b st.keySet st.output.findings h1)
      (by rw [persistOutputSnapshot_keySet]
          exact dedupFold_nodup b st.keySet st.output.findings h2)
    refine ⟨ih1, ih2, fun k => ?_⟩
    rw [ih3 k]
    rw [persistOutputSnapshot_keySet]
    rw [dedupFold_mem b st.keySet st.output.findings k]
    simp only [List.mem_map, List.mem_cons]
    constructor
    · rintro ((h | ⟨f, hf, hk⟩) | ⟨b', hb', f, hf, hk⟩)
      · exact Or.inl h
      · exact Or.inr ⟨b, Or.inl rfl, f, hf, hk⟩
      · exact Or.inr ⟨b', Or.inr hb', f, hf, hk⟩
    · rintro (h | ⟨b', hb' | hb', f, hf, hk⟩)
      · exact Or.inl (Or.inl h)
      · exact Or.inl (Or.inr ⟨f, hb' ▸ hf, hk⟩)
      · exact Or.inr ⟨b', hb', f, hf, hk⟩

theorem filter_key_length_one (l : List LeakFinding) (a : String)
    (hnd : (l.map makeFindingKey).Nodup) (ha : a ∈ l.map makeFindingKey) :
    (l.filter (fun g => makeFindingKey g == a)).length = 1 := by
  induction l with
  | nil => simp at ha
  | cons x l ih =>
    simp only [List.map_cons, List.nodup_cons] at hnd
    by_cases hxa : makeFindingKey x = a
    · have hfl : l.filter (fun g => makeFindingKey g == a) = [] := by
        rw [List.filter_eq_nil_iff]
        intro y hy
        simp only [beq_iff_eq]
        intro hya
        apply hnd.1
        rw [hxa, ← hya]
        exact List.mem_map.mpr ⟨y, hy, rfl⟩
      simp [List.filter_cons, hxa, hfl]
    · have ha' : a ∈ l.map makeFindingKey := by
        rcases List.mem_cons.mp ha with h | h
        · exact absurd h.symm hxa
        · exact h
      simp only [List.filter_cons, beq_iff_eq, hxa, decide_eq_true_eq, if_false]
      exact ih hnd.2 ha'

theorem string_append_left_cancel (a b c : String) (h : a ++ b = a ++ c) :
    b = c := by
  have hd := congrArg String.data h
  simp only [String.data_append] at hd
  exact String.ext (List.append_cancel_left hd)

theorem makeFindingKey_ne_of_linePreview_ne (f g : LeakFinding)
    (h1 : f.branch = g.branch) (h2 : f.commitSha = g.commitSha)
    (h3 : f.filePath = g.filePath) (h4 : f.leakType = g.leakType)
    (h5 : f.leakValue = g.leakValue) (h6 : f.linePreview ≠ g.linePreview) :
    makeFindingKey f ≠ makeFindingKey g := by
  intro hk
  apply h6
  unfold makeFindingKey at hk
  rw [h1, h2, h3, h4, h5] at hk
  exact string_append_left_cancel _ _ _ hk

/-- Claim C2: across any sequence of appended finding batches, the persisted
findings list is de-duplicated by the full six-field identity key: its keys
are pairwise distinct, every appended finding is represented by exactly one
entry with its key, findings identical in all six identity fields share one
key (and hence one entry), and findings differing only in `linePreview` have
different keys and are retained as two distinct entries. -/
theorem c2_dedup_key (repoUrl : String) (runs : List (List LeakFinding)) :
    (((appendRuns repoUrl runs).output.findings.map makeFindingKey).Nodup) ∧
    (∀ f : LeakFinding, (∃ b ∈ runs, f ∈ b) →
      ((appendRuns repoUrl runs).output.findings.filter
        (fun g => makeFindingKey g == makeFindingKey f)).length = 1) ∧
    (∀ f g : LeakFinding, f.branch = g.branch → f.commitSha = g.commitSha →
      f.filePath = g.filePath → f.leakType = g.leakType →
      f.leakValue = g.leakValue → f.linePreview = g.linePreview →
      makeFindingKey f = makeFindingKey g) ∧
    (∀ f g : LeakFinding, f.branch = g.branch → f.commitSha = g.commitSha →
      f.filePath = g.filePath → f.leakType = g.leakType →
      f.leakValue = g.leakValue → f.linePreview ≠ g.linePreview →
      (∃ b ∈ runs, f ∈ b) → (∃ b ∈ runs, g ∈ b) →
      ∃ f' ∈ (appendRuns repoUrl runs).output.findings,
        ∃ g' ∈ (appendRuns repoUrl runs).output.findings,
          makeFindingKey f' = makeFindingKey f ∧
          makeFindingKey g' = makeFindingKey g ∧ f' ≠ g') := by
  obtain ⟨hinv, hnd, hmem⟩ := appendRunsAux_spec repoUrl runs
    (freshScanner repoUrl) rfl List.nodup_nil
  have hnd' : ((appendRuns repoUrl runs).output.findings.map makeFindingKey).Nodup := by
    rw [appendRuns, ← hinv]
    exact hnd
  have hrep : ∀ f : LeakFinding, (∃ b ∈ runs, f ∈ b) →
      makeFindingKey f ∈ (appendRuns repoUrl runs).output.findings.map
        makeFindingKey := by
    intro f hf
    rw [appendRuns, ← hinv]
    rw [hmem (makeFindingKey f)]
    right
    obtain ⟨b, hb, hfb⟩ := hf
    exact ⟨b, hb, f, hfb, rfl⟩
  refine ⟨hnd', ?_, ?_, ?_⟩
  · intro f hf
    exact filter_key_length_one _ _ hnd' (hrep f hf)
  · intro f g h1 h2 h3 h4 h5 h6
    unfold makeFindingKey
    rw [h1, h2, h3, h4, h5, h6]
  · intro f g h1 h2 h3 h4 h5 h6 hf hg
    obtain ⟨f', hf', hkf⟩ := List.mem_map.mp (hrep f hf)
    obtain ⟨g', hg', hkg⟩ := List.mem_map.mp (hrep g hg)
    refine ⟨f', hf', g', hg', hkf, hkg, ?_⟩
    intro hEq
    apply makeFindingKey_ne_of_linePreview_ne f g h1 h2 h3 h4 h5 h6
    rw [← hkf, ← hkg, hEq]

/-- Witness for C2 at two concrete batches: the same finding appended twice is
merged; a finding differing only in `linePreview` is kept separately. -/
theorem c2_dedup_key_witness :
    (∃ b ∈ [[(⟨"m", "s", "c", "d", "p", "t", "v", "l1"⟩ : LeakFinding)],
        [⟨"m", "s", "c", "d", "p", "t", "v", "l1"⟩,
         ⟨"m", "s", "c", "d", "p", "t", "v", "l2"⟩]],
      (⟨"m", "s", "c", "d", "p", "t", "v", "l1"⟩ : LeakFinding) ∈ b) ∧
    ((appendRuns "r" [[⟨"m", "s", "c", "d", "p", "t", "v", "l1"⟩],
        [⟨"m", "s", "c", "d", "p", "t", "v", "l1"⟩,
         ⟨"m", "s", "c", "d", "p", "t", "v", "l2"⟩]]).output.findings.filter
      (fun g => makeFindingKey g ==
        makeFindingKey ⟨"m", "s", "c", "d", "p", "t", "v", "l1"⟩)).length = 1 := by
  constructor
  · exact ⟨[⟨"m", "s", "c", "d", "p", "t", "v", "l1"⟩], by simp, by simp⟩
  · exact (c2_dedup_key "r" [[⟨"m", "s", "c", "d", "p", "t", "v", "l1"⟩],
      [⟨"m", "s", "c", "d", "p", "t", "v", "l1"⟩,
       ⟨"m", "s", "c", "d", "p", "t", "v", "l2"⟩]]).2.1
      ⟨"m", "s", "c", "d", "p", "t", "v", "l1"⟩
      ⟨[⟨"m", "s", "c", "d", "p", "t", "v", "l1"⟩], by simp, by simp⟩

end SecretScanner

namespace SecretScanner

/-! ### Resume-equivalence lemmas (claim C3) -/

theorem scanBranchFinish_capped_pair (repoUrl branch : String)
    (resume : Option String) (w : Bool) (p : Nat) (ls : Option String)
    (fs : List LeakFinding) (st : ScannerState) (ph : List String) :
    scanBranchFinish repoUrl branch resume w
        { processed := p, lastSha := ls, findings := fs, completed := false,
          st := st, processedHashes := ph } =
      ({ branch := branch, findings := fs, processedCommits := p,
         lastSha := (match ls with | some s => some s | none => resume),
         completed := false, warnedResumeMissing := w, processedHashes := ph },
       st) := rfl

theorem scanBranchFinish_fst_processed (repoUrl branch : String)
    (resume : Option String) (w : Bool) (r : WalkResult) :
    (scanBranchFinish repoUrl branch resume w r).1.processedCommits =
      r.processed := by
  by_cases h : r.completed = true <;> simp [scanBranchFinish, h]

theorem scanBranchFinish_snd_findings_completed (repoUrl branch : String)
    (resume : Option String) (w : Bool) (r : WalkResult)
    (hr : r.completed = true) :
    (scanBranchFinish repoUrl branch resume w r).2.output.findings =
      r.st.output.findings := by
  simp only [scanBranchFinish, hr, eq_self_iff_true, if_true]
  rfl

theorem scanBranchFinish_snd_processed_completed (repoUrl branch : String)
    (resume : Option String) (w : Bool) (r : WalkResult)
    (hr : r.completed = true) :
    (scanBranchFinish repoUrl branch resume w r).2.output.processedCommits =
      r.st.total := by
  simp only [scanBranchFinish, hr, eq_self_iff_true, if_true]
  rfl

theorem scanBranch_fresh_run (repoUrl branch now : String)
    (pats : List LeakPattern) (diffOf : String → String)
    (maxOpt : Option Nat) (commits : List Commit) (st0 : ScannerState)
    (hget : ScanStateStore.getBranchState st0.store branch = .ok none) :
    scanBranch repoUrl branch now false maxOpt pats diffOf commits st0 =
      .ok (scanBranchFinish repoUrl branch none false
        (scanBranchLoop repoUrl branch now pats diffOf
          (maxOpt.getD commits.length) commits 0 none [] [] st0)) := by
  simp only [scanBranch, hget]
  rfl

theorem scanBranch_resume_run (repoUrl branch now sha t0 : String)
    (pats : List LeakPattern) (diffOf : String → String)
    (maxOpt : Option Nat) (commits : List Commit) (st0 : ScannerState) (i : Nat)
    (hget : ScanStateStore.getBranchState st0.store branch =
      .ok (some ⟨some sha, t0, true⟩))
    (hsha : sha ≠ "")
    (hidx : commits.findIdx (fun c => c.hash == sha) = i)
    (hlt : i < commits.length) :
    ∃ w, scanBranch repoUrl branch now false maxOpt pats diffOf commits st0 =
      .ok (scanBranchFinish repoUrl branch (some sha) w
        (scanBranchLoop repoUrl branch now pats diffOf
          (maxOpt.getD commits.length) (commits.drop (i + 1)) 0 (some sha) [] []
          st0)) := by
  simp only [scanBranch, hget, scanBranchCore, Bool.not_false, Bool.true_and,
    Option.getD_some, hidx, isTruthy_some_of_ne hsha, hlt, if_true,
    Bool.and_eq_true]
  exact ⟨_, rfl⟩

theorem dedupRun_inv (pats : List LeakPattern) (diffOf : String → String)
    (branch : String) (l : List Commit) :
    ∀ p : List String × List LeakFinding, p.1 = p.2.map makeFindingKey →
      (dedupRun pats diffOf branch p l).1 =
        (dedupRun pats diffOf branch p l).2.map makeFindingKey := by
  induction l with
  | nil => intro p h; exact h
  | cons c rest ih =>
    intro p h
    unfold dedupRun
    simp only [List.foldl_cons]
    exact ih _ (dedupFold_inv _ _ _ h)

theorem dedupRun_append (pats : List LeakPattern) (diffOf : String → String)
    (branch : String) (p : List String × List LeakFinding) (xs ys : List Commit) :
    dedupRun pats diffOf branch p (xs ++ ys) =
      dedupRun pats diffOf branch (dedupRun pats diffOf branch p xs) ys := by
  unfold dedupRun
  rw [List.foldl_append]

theorem foldStep_processedEq (repoUrl branch now : String)
    (pats : List LeakPattern) (diffOf : String → String) (l : List Commit) :
    ∀ st : ScannerState, st.output.processedCommits = st.total →
      (l.foldl (stepCommit repoUrl branch now pats diffOf) st).output.processedCommits =
        (l.foldl (stepCommit repoUrl branch now pats diffOf) st).total := by
  induction l with
  | nil => intro st h; exact h
  | cons c rest ih =>
    intro st _
    simp only [List.foldl_cons]
    exact ih _ rfl

end SecretScanner

namespace SecretScanner

/-- Claim C3: splitting one branch's history into a capped run (cap `N`
smaller than the history length) followed by a resumed run from the saved
checkpoint and re-loaded snapshot produces the same persisted findings list
and the same cumulative processed-commit count as one uncapped run, and the
two runs' per-run processed counts sum to the single run's. -/
theorem c3_resume_equivalence (repoUrl branch now1 now2 now3 : String)
    (pats : List LeakPattern) (diffOf : String → String) (commits : List Commit)
    (N : Nat) (hN : N < commits.length)
    (hnodup : (commits.map Commit.hash).Nodup)
    (hne : ∀ c ∈ commits, c.hash ≠ "") :
    ∃ r1 s1 r2 s2 rs ss,
      scanBranch repoUrl branch now1 false (some N) pats diffOf commits
        (freshScanner repoUrl) = .ok (r1, s1) ∧
      scanBranch repoUrl branch now2 false none pats diffOf commits
        (reloadScanner s1.output s1.store) = .ok (r2, s2) ∧
      scanBranch repoUrl branch now3 false none pats diffOf commits
        (freshScanner repoUrl) = .ok (rs, ss) ∧
      s2.output.findings = ss.output.findings ∧
      s2.output.processedCommits = ss.output.processedCommits ∧
      r1.processedCommits + r2.processedCommits = rs.processedCommits := by
  -- run 1: fresh capped run
  have h1 := scanBranch_fresh_run repoUrl branch now1 pats diffOf (some N) commits
    (freshScanner repoUrl) rfl
  rw [scanBranchLoop_run] at h1
  simp only [Option.getD_some] at h1
  have hc1 : decide (commits.length ≤ N) = false := decide_eq_false (by omega)
  rw [hc1, scanBranchFinish_capped_pair] at h1
  -- run-1 final state facts
  have hp1 : (((commits.take N).foldl (stepCommit repoUrl branch now1 pats diffOf)
        (freshScanner repoUrl)).keySet,
      ((commits.take N).foldl (stepCommit repoUrl branch now1 pats diffOf)
        (freshScanner repoUrl)).output.findings) =
      dedupRun pats diffOf branch ([], []) (commits.take N) :=
    foldStep_dedup repoUrl branch now1 pats diffOf (commits.take N)
      (freshScanner repoUrl)
  have hpe1 : ((commits.take N).foldl (stepCommit repoUrl branch now1 pats diffOf)
        (freshScanner repoUrl)).output.processedCommits =
      ((commits.take N).foldl (stepCommit repoUrl branch now1 pats diffOf)
        (freshScanner repoUrl)).total :=
    foldStep_processedEq repoUrl branch now1 pats diffOf (commits.take N)
      (freshScanner repoUrl) rfl
  have htot1 : ((commits.take N).foldl (stepCommit repoUrl branch now1 pats diffOf)
        (freshScanner repoUrl)).total = N := by
    rw [foldStep_total repoUrl branch now1 pats diffOf (commits.take N)
      (freshScanner repoUrl)]
    simp only [freshScanner, List.length_take]
    omega
  -- run 2: resumed from the persisted checkpoint and re-loaded snapshot
  obtain ⟨RS, W, h2⟩ :
      ∃ RS W, scanBranch repoUrl branch now2 false none pats diffOf commits
          (reloadScanner
            ((commits.take N).foldl (stepCommit repoUrl branch now1 pats diffOf)
              (freshScanner repoUrl)).output
            ((commits.take N).foldl (stepCommit repoUrl branch now1 pats diffOf)
              (freshScanner repoUrl)).store) =
        .ok (scanBranchFinish repoUrl branch RS W
          (scanBranchLoop repoUrl branch now2 pats diffOf
            ((none : Option Nat).getD commits.length) (commits.drop N) 0 RS [] []
            (reloadScanner
              ((commits.take N).foldl (stepCommit repoUrl branch now1 pats diffOf)
                (freshScanner repoUrl)).output
              ((commits.take N).foldl (stepCommit repoUrl branch now1 pats diffOf)
                (freshScanner repoUrl)).store))) := by
    cases N with
    | zero =>
      refine ⟨none, false, ?_⟩
      have hfr := scanBranch_fresh_run repoUrl branch now2 pats diffOf none commits
        (reloadScanner
          ((commits.take 0).foldl (stepCommit repoUrl branch now1 pats diffOf)
            (freshScanner repoUrl)).output
          ((commits.take 0).foldl (stepCommit repoUrl branch now1 pats diffOf)
            (freshScanner repoUrl)).store) rfl
      rw [hfr]
      rw [List.drop_zero]
    | succ M =>
      have hMlt : M < commits.length := by omega
      have hdec : commits = commits.take M ++ commits[M] :: commits.drop (M + 1) := by
        conv_lhs => rw [← List.take_append_drop M commits]
        rw [List.drop_eq_getElem_cons hMlt]
      obtain ⟨A, c0, B, hAB, hlenA, hA, hB, hc0⟩ :
          ∃ A c0 B, commits = A ++ c0 :: B ∧ A.length = M ∧
            A = commits.take M ∧ B = commits.drop (M + 1) ∧ c0 = commits[M] :=
        ⟨commits.take M, commits[M], commits.drop (M + 1), hdec,
          by simp only [List.length_take]; omega, rfl, rfl, rfl⟩
      have htake : commits.take (M + 1) = A ++ [c0] := by
        rw [List.take_succ, List.getElem?_eq_getElem hMlt, hA, hc0]
        rfl
      have hnd2 : ((A ++ c0 :: B).map Commit.hash).Nodup := by
        rw [← hAB]
        exact hnodup
      have hc0A : c0.hash ∉ A.map Commit.hash := by
        rw [List.map_append, List.map_cons] at hnd2
        have hmid := List.nodup_middle.mp hnd2
        have hnotmem := (List.nodup_cons.mp hmid).1
        intro hmem
        exact hnotmem (List.mem_append.mpr (Or.inl hmem))
      have hnotin : ∀ a ∈ A, (fun c => c.hash == c0.hash) a = false := by
        intro a ha
        simp only [beq_eq_false_iff_ne, ne_eq]
        intro heq
        exact hc0A (List.mem_map.mpr ⟨a, ha, heq⟩)
      have hidx : commits.findIdx (fun c => c.hash == c0.hash) = M := by
        conv_lhs => rw [hAB]
        rw [findIdx_append_cons _ _ _ _ hnotin (by simp)]
        exact hlenA
      have hc0mem : c0 ∈ commits := by
        rw [hAB]
        exact List.mem_append.mpr (Or.inr (List.mem_cons_self c0 B))
      have hsha : c0.hash ≠ "" := hne c0 hc0mem
      have hgetS1 : ScanStateStore.getBranchState
          ((commits.take (M + 1)).foldl
            (stepCommit repoUrl branch now1 pats diffOf)
            (freshScanner repoUrl)).store branch =
          .ok (some ⟨some c0.hash, now1, true⟩) := by
        rw [foldStep_store, htake]
        exact storeFold_last branch now1 (freshScanner repoUrl).store A c0
          (by intro hcontra; exact StoreFile.noConfusion hcontra)
      obtain ⟨w, hw⟩ := scanBranch_resume_run repoUrl branch now2 c0.hash now1
        pats diffOf none commits
        (reloadScanner
          ((commits.take (M + 1)).foldl (stepCommit repoUrl branch now1 pats diffOf)
            (freshScanner repoUrl)).output
          ((commits.take (M + 1)).foldl (stepCommit repoUrl branch now1 pats diffOf)
            (freshScanner repoUrl)).store) M hgetS1 hsha hidx hMlt
      exact ⟨some c0.hash, w, hw⟩
  -- single uncapped run
  have h3 := scanBranch_fresh_run repoUrl branch now3 pats diffOf none commits
    (freshScanner repoUrl) rfl
  simp only [Option.getD_none] at h2 h3
  set F1 := (commits.take N).foldl (stepCommit repoUrl branch now1 pats diffOf)
    (freshScanner repoUrl) with hF1
  -- completion of the two uncapped walks
  have hr2c : (scanBranchLoop repoUrl branch now2 pats diffOf commits.length
      (commits.drop N) 0 RS [] [] (reloadScanner F1.output F1.store)).completed =
      true := by
    rw [scanBranchLoop_run]
    exact decide_eq_true (by simp [List.length_drop])
  have hrsc : (scanBranchLoop repoUrl branch now3 pats diffOf commits.length
      commits 0 none [] [] (freshScanner repoUrl)).completed = true := by
    rw [scanBranchLoop_run]
    exact decide_eq_true (le_refl _)
  have htk2 : (commits.drop N).take commits.length = commits.drop N :=
    List.take_of_length_le (by simp [List.length_drop])
  have htks : commits.take commits.length = commits := List.take_length commits
  -- the reloaded scanner carries the same dedup pair as the capped run left
  have hst2pair : ((reloadScanner F1.output F1.store).keySet,
      (reloadScanner F1.output F1.store).output.findings) =
      dedupRun pats diffOf branch ([], []) (commits.take N) := by
    have hf := congrArg Prod.snd hp1
    simp only at hf
    have hinv := dedupRun_inv pats diffOf branch (commits.take N) ([], []) rfl
    rw [show (reloadScanner F1.output F1.store).keySet =
      F1.output.findings.map makeFindingKey from rfl]
    rw [show (reloadScanner F1.output F1.store).output.findings =
      F1.output.findings from rfl]
    rw [hf, ← hinv]
  -- findings agree
  have hFindings : (scanBranchFinish repoUrl branch RS W
      (scanBranchLoop repoUrl branch now2 pats diffOf commits.length
        (commits.drop N) 0 RS [] []
        (reloadScanner F1.output F1.store))).2.output.findings =
      (scanBranchFinish repoUrl branch none false
        (scanBranchLoop repoUrl branch now3 pats diffOf commits.length commits 0
          none [] [] (freshScanner repoUrl))).2.output.findings := by
    rw [scanBranchFinish_snd_findings_completed _ _ _ _ _ hr2c,
      scanBranchFinish_snd_findings_completed _ _ _ _ _ hrsc]
    rw [scanBranchLoop_run, scanBranchLoop_run]
    simp only []
    rw [htk2, htks]
    have hpair2 := foldStep_dedup repoUrl branch now2 pats diffOf (commits.drop N)
      (reloadScanner F1.output F1.store)
    have hpairS := foldStep_dedup repoUrl branch now3 pats diffOf commits
      (freshScanner repoUrl)
    rw [hst2pair, ← dedupRun_append, List.take_append_drop] at hpair2
    have h2s := congrArg Prod.snd hpair2
    have hSs := congrArg Prod.snd hpairS
    simp only at h2s hSs
    rw [h2s, hSs]
    rfl
  -- cumulative processed counters agree
  have hProcessed : (scanBranchFinish repoUrl branch RS W
      (scanBranchLoop repoUrl branch now2 pats diffOf commits.length
        (commits.drop N) 0 RS [] []
        (reloadScanner F1.output F1.store))).2.output.processedCommits =
      (scanBranchFinish repoUrl branch none false
        (scanBranchLoop repoUrl branch now3 pats diffOf commits.length commits 0
          none [] [] (freshScanner repoUrl))).2.output.processedCommits := by
    rw [scanBranchFinish_snd_processed_completed _ _ _ _ _ hr2c,
      scanBranchFinish_snd_processed_completed _ _ _ _ _ hrsc]
    rw [scanBranchLoop_run, scanBranchLoop_run]
    simp only []
    rw [htk2, htks]
    rw [foldStep_total repoUrl branch now2 pats diffOf (commits.drop N) _,
      foldStep_total repoUrl branch now3 pats diffOf commits _]
    have hreltot : (reloadScanner F1.output F1.store).total = N := by
      rw [show (reloadScanner F1.output F1.store).total =
        F1.output.processedCommits from rfl]
      rw [hpe1, htot1]
    rw [hreltot]
    simp only [freshScanner, List.length_drop]
    omega
  -- per-run processed counts sum to the single run's
  have hSum : (N ⊓ commits.length) +
      (scanBranchFinish repoUrl branch RS W
        (scanBranchLoop repoUrl branch now2 pats diffOf commits.length
          (commits.drop N) 0 RS [] []
          (reloadScanner F1.output F1.store))).1.processedCommits =
      (scanBranchFinish repoUrl branch none false
        (scanBranchLoop repoUrl branch now3 pats diffOf commits.length commits 0
          none [] [] (freshScanner repoUrl))).1.processedCommits := by
    rw [scanBranchFinish_fst_processed, scanBranchFinish_fst_processed]
    rw [scanBranchLoop_run, scanBranchLoop_run]
    simp only [List.length_drop]
    omega
  exact ⟨_, _, _, _, _, _, h1, h2, h3, hFindings, hProcessed, hSum⟩

end SecretScanner

namespace SecretScanner

/-- Witness for C3 at a concrete two-commit history with cap 1. -/
theorem c3_resume_equivalence_witness :
    ((1 : Nat) < ([⟨"h1", "a", "e", "d"⟩, ⟨"h2", "a", "e", "d"⟩] :
      List Commit).length) ∧
    ((([⟨"h1", "a", "e", "d"⟩, ⟨"h2", "a", "e", "d"⟩] :
      List Commit).map Commit.hash).Nodup) ∧
    (∀ c ∈ ([⟨"h1", "a", "e", "d"⟩, ⟨"h2", "a", "e", "d"⟩] : List Commit),
      c.hash ≠ "") ∧
    (∃ r1 s1 r2 s2 rs ss,
      scanBranch "r" "b" "t1" false (some 1) [] (fun _ => "")
        [⟨"h1", "a", "e", "d"⟩, ⟨"h2", "a", "e", "d"⟩]
        (freshScanner "r") = .ok (r1, s1) ∧
      scanBranch "r" "b" "t2" false none [] (fun _ => "")
        [⟨"h1", "a", "e", "d"⟩, ⟨"h2", "a", "e", "d"⟩]
        (reloadScanner s1.output s1.store) = .ok (r2, s2) ∧
      scanBranch "r" "b" "t3" false none [] (fun _ => "")
        [⟨"h1", "a", "e", "d"⟩, ⟨"h2", "a", "e", "d"⟩]
        (freshScanner "r") = .ok (rs, ss) ∧
      s2.output.findings = ss.output.findings ∧
      s2.output.processedCommits = ss.output.processedCommits ∧
      r1.processedCommits + r2.processedCommits = rs.processedCommits) := by
  refine ⟨by decide, by decide, by decide, ?_⟩
  exact c3_resume_equivalence "r" "b" "t1" "t2" "t3" [] (fun _ => "")
    [⟨"h1", "a", "e", "d"⟩, ⟨"h2", "a", "e", "d"⟩] 1 (by decide) (by decide)
    (by decide)

end SecretScanner

namespace SecretScanner

/-! ### Crash-ordering lemmas (claim C7) -/

theorem dedupFold_extends (new : List LeakFinding) :
    ∀ (ks : List String) (fs : List LeakFinding),
      ∃ ext, (dedupFold ks fs new).2 = fs ++ ext := by
  induction new with
  | nil => intro ks fs; exact ⟨[], by simp [dedupFold]⟩
  | cons f rest ih =>
    intro ks fs
    by_cases hk : makeFindingKey f ∈ ks
    · simp only [dedupFold, hk, if_true]
      exact ih ks fs
    · simp only [dedupFold, hk, if_false]
      obtain ⟨ext, hext⟩ := ih (ks ++ [makeFindingKey f]) (fs ++ [f])
      exact ⟨[f] ++ ext, by rw [hext, List.append_assoc]⟩

theorem dedupFold_new_keys (new : List LeakFinding) (ks : List String)
    (fs : List LeakFinding) (hinv : ks = fs.map makeFindingKey) :
    ∀ f ∈ new, makeFindingKey f ∈ (dedupFold ks fs new).2.map makeFindingKey := by
  intro f hf
  rw [← dedupFold_inv new ks fs hinv]
  rw [dedupFold_mem new ks fs (makeFindingKey f)]
  exact Or.inr (List.mem_map.mpr ⟨f, hf, rfl⟩)

theorem stepCommit_findings_extends (repoUrl branch now : String)
    (pats : List LeakPattern) (diffOf : String → String) (st : ScannerState)
    (c : Commit) :
    ∃ ext, (stepCommit repoUrl branch now pats diffOf st c).output.findings =
      st.output.findings ++ ext := by
  rw [stepCommit_findings]
  exact dedupFold_extends _ _ _

theorem lastCheckpoint_go (t : List Event) :
    ∀ acc : Option (String × BranchState),
      (List.foldl (fun acc e =>
        match e with
        | Event.checkpointWrite b bs => some (b, bs)
        | _ => acc) acc t) = (lastCheckpoint t).or acc := by
  induction t with
  | nil => intro acc; rfl
  | cons e t ih =>
    intro acc
    show (List.foldl _ _ t) = (lastCheckpoint (e :: t)).or acc
    rw [show lastCheckpoint (e :: t) = List.foldl (fun acc e =>
      match e with
      | Event.checkpointWrite b bs => some (b, bs)
      | _ => acc) (match e with
      | Event.checkpointWrite b bs => some (b, bs)
      | _ => none) t from rfl]
    rw [ih, ih]
    cases hl : lastCheckpoint t <;> cases e <;> rfl

theorem lastCheckpoint_cons (e : Event) (t : List Event) :
    lastCheckpoint (e :: t) =
      (lastCheckpoint t).or
        (match e with
         | Event.checkpointWrite b bs => some (b, bs)
         | _ => none) := by
  show (List.foldl _ _ t) = _
  rw [lastCheckpoint_go]

theorem lastSnapshot_go (t : List Event) :
    ∀ acc : Option OutputState,
      (List.foldl (fun acc e =>
        match e with
        | Event.snapshotWrite o => some o
        | _ => acc) acc t) = (lastSnapshot t).or acc := by
  induction t with
  | nil => intro acc; rfl
  | cons e t ih =>
    intro acc
    show (List.foldl _ _ t) = (lastSnapshot (e :: t)).or acc
    rw [show lastSnapshot (e :: t) = List.foldl (fun acc e =>
      match e with
      | Event.snapshotWrite o => some o
      | _ => acc) (match e with
      | Event.snapshotWrite o => some o
      | _ => none) t from rfl]
    rw [ih, ih]
    cases hl : lastSnapshot t <;> cases e <;> rfl

theorem lastSnapshot_cons (e : Event) (t : List Event) :
    lastSnapshot (e :: t) =
      (lastSnapshot t).or
        (match e with
         | Event.snapshotWrite o => some o
         | _ => none) := by
  show (List.foldl _ _ t) = _
  rw [lastSnapshot_go]

theorem lastCheckpoint_mem (t : List Event) :
    ∀ {b : String} {bs : BranchState}, lastCheckpoint t = some (b, bs) →
      Event.checkpointWrite b bs ∈ t := by
  induction t with
  | nil => intro b bs h; simp [lastCheckpoint] at h
  | cons e t ih =>
    intro b bs h
    rw [lastCheckpoint_cons] at h
    cases hl : lastCheckpoint t with
    | some x =>
      rw [hl] at h
      simp only [Option.or] at h
      cases h
      exact List.mem_cons_of_mem _ (ih hl)
    | none =>
      rw [hl] at h
      simp only [Option.or] at h
      cases e with
      | snapshotWrite o => simp at h
      | checkpointWrite b' bs' =>
        simp only [Option.some.injEq, Prod.mk.injEq] at h
        rw [← h.1, ← h.2]
        exact List.mem_cons_self _ _

theorem lastSnapshot_mem (t : List Event) :
    ∀ {o : OutputState}, lastSnapshot t = some o →
      Event.snapshotWrite o ∈ t := by
  induction t with
  | nil => intro o h; simp [lastSnapshot] at h
  | cons e t ih =>
    intro o h
    rw [lastSnapshot_cons] at h
    cases hl : lastSnapshot t with
    | some x =>
      rw [hl] at h
      simp only [Option.or] at h
      cases h
      exact List.mem_cons_of_mem _ (ih hl)
    | none =>
      rw [hl] at h
      simp only [Option.or] at h
      cases e with
      | checkpointWrite b' bs' => simp at h
      | snapshotWrite o' =>
        simp only [Option.some.injEq] at h
        rw [← h]
        exact List.mem_cons_self _ _

theorem isPrefix_nil_elim {α : Type} {p : List α} (h : p <+: ([] : List α)) :
    p = [] := by
  obtain ⟨r, hr⟩ := h
  cases p with
  | nil => rfl
  | cons a q => simp at hr

theorem isPrefix_cons_elim {α : Type} {p : List α} {a : α} {t : List α}
    (h : p <+: a :: t) : p = [] ∨ ∃ q, p = a :: q ∧ q <+: t := by
  obtain ⟨r, hr⟩ := h
  cases p with
  | nil => exact Or.inl rfl
  | cons x q =>
    simp only [List.cons_append, List.cons.injEq] at hr
    exact Or.inr ⟨q, by rw [hr.1], ⟨r, hr.2⟩⟩

theorem traceOf_snap_mono (repoUrl branch now : String) (pats : List LeakPattern)
    (diffOf : String → String) :
    ∀ (m : List Commit) (st : ScannerState) (o : OutputState),
      Event.snapshotWrite o ∈ traceOf repoUrl branch now pats diffOf st m →
      st.output.findings.map makeFindingKey ⊆ o.findings.map makeFindingKey := by
  intro m
  induction m with
  | nil => intro st o h; simp [traceOf] at h
  | cons c m' ih =>
    intro st o h
    simp only [traceOf, List.mem_cons] at h
    rcases h with h | h | h
    · cases h
      obtain ⟨ext, hext⟩ := stepCommit_findings_extends repoUrl branch now pats
        diffOf st c
      rw [hext, List.map_append]
      exact List.subset_append_left _ _
    · exact absurd h (by simp)
    · obtain ⟨ext, hext⟩ := stepCommit_findings_extends repoUrl branch now pats
        diffOf st c
      refine List.Subset.trans ?_ (ih _ o h)
      rw [hext, List.map_append]
      exact List.subset_append_left _ _

theorem ckpt_mem_traceOf (repoUrl branch now : String) (pats : List LeakPattern)
    (diffOf : String → String) :
    ∀ (m : List Commit) (st : ScannerState) (b : String) (bs : BranchState),
      Event.checkpointWrite b bs ∈ traceOf repoUrl branch now pats diffOf st m →
      b = branch ∧ ∃ c ∈ m, bs = mkCheckpoint now c := by
  intro m
  induction m with
  | nil => intro st b bs h; simp [traceOf] at h
  | cons c m' ih =>
    intro st b bs h
    simp only [traceOf, List.mem_cons] at h
    rcases h with h | h | h
    · exact absurd h (by simp)
    · simp only [Event.checkpointWrite.injEq] at h
      exact ⟨h.1, c, List.mem_cons_self _ _, h.2⟩
    · obtain ⟨hb, c', hc', hbs⟩ := ih _ b bs h
      exact ⟨hb, c', List.mem_cons_of_mem _ hc', hbs⟩

theorem commitsThrough_prefix_self (h : String) :
    ∀ (A : List Commit) (c : Commit) (B : List Commit), c.hash = h →
      commitsThrough h (A ++ c :: B) <+: A ++ [c] := by
  intro A
  induction A with
  | nil =>
    intro c B hc
    simp [commitsThrough, hc]
  | cons a A ih =>
    intro c B hc
    by_cases ha : a.hash = h
    · simp only [List.cons_append, commitsThrough, ha, if_true]
      exact ⟨A ++ [c], rfl⟩
    · simp only [List.cons_append, commitsThrough, ha, if_false]
      obtain ⟨r, hr⟩ := ih c B hc
      exact ⟨r, by simp only [List.append_eq, List.cons_append]; rw [hr]⟩

theorem commitsThrough_append_left (h : String) :
    ∀ (A B : List Commit), h ∈ A.map Commit.hash →
      commitsThrough h (A ++ B) = commitsThrough h A := by
  intro A
  induction A with
  | nil => intro B hmem; simp at hmem
  | cons a A ih =>
    intro B hmem
    by_cases ha : a.hash = h
    · simp [commitsThrough, ha]
    · have hmem' : h ∈ A.map Commit.hash := by
        simp only [List.map_cons, List.mem_cons] at hmem
        rcases hmem with hmem | hmem
        · exact absurd hmem.symm ha
        · exact hmem
      simp only [List.cons_append, commitsThrough, ha, if_false, List.append_eq,
        ih B hmem']

end SecretScanner

namespace SecretScanner

theorem traceOf_safe (repoUrl branch now : String) (pats : List LeakPattern)
    (diffOf : String → String) :
    ∀ (m : List Commit) (st : ScannerState) (done : List Commit),
      st.keySet = st.output.findings.map makeFindingKey →
      ((done.flatMap (commitLeaks pats diffOf branch)).map makeFindingKey) ⊆
        st.output.findings.map makeFindingKey →
      ∀ p, p <+: traceOf repoUrl branch now pats diffOf st m →
        ∀ b bs, lastCheckpoint p = some (b, bs) →
          ∀ h, bs.lastProcessedSha = some h →
            ∃ out, lastSnapshot p = some out ∧
              requiredKeys pats diffOf branch (done ++ m) h ⊆
                out.findings.map makeFindingKey := by
  intro m
  induction m with
  | nil =>
    intro st done hinv hsub p hp b bs hck h hsha
    simp only [traceOf] at hp
    rw [isPrefix_nil_elim hp] at hck
    simp [lastCheckpoint] at hck
  | cons c m' ih =>
    intro st done hinv hsub p hp b bs hck h hsha
    simp only [traceOf] at hp
    set ST := stepCommit repoUrl branch now pats diffOf st c with hST
    have hinv' : ST.keySet = ST.output.findings.map makeFindingKey := by
      rw [hST, stepCommit_keySet, stepCommit_findings]
      exact dedupFold_inv _ _ _ hinv
    obtain ⟨ext, hext⟩ := stepCommit_findings_extends repoUrl branch now pats
      diffOf st c
    rw [← hST] at hext
    have hsub' : (((done ++ [c]).flatMap
        (commitLeaks pats diffOf branch)).map makeFindingKey) ⊆
        ST.output.findings.map makeFindingKey := by
      rw [List.flatMap_append, List.map_append]
      intro k hk
      rcases List.mem_append.mp hk with hk | hk
      · rw [hext, List.map_append]
        exact List.mem_append_left _ (hsub hk)
      · simp only [List.flatMap_cons, List.flatMap_nil, List.append_nil] at hk
        obtain ⟨f, hf, rfl⟩ := List.mem_map.mp hk
        rw [hST, stepCommit_findings]
        exact dedupFold_new_keys _ _ _ hinv f hf
    rcases isPrefix_cons_elim hp with rfl | ⟨q, rfl, hq⟩
    · simp [lastCheckpoint] at hck
    rcases isPrefix_cons_elim hq with rfl | ⟨q', rfl, hq'⟩
    · have hnone : lastCheckpoint [Event.snapshotWrite ST.output] = none := rfl
      rw [hnone] at hck
      simp at hck
    have hckp : lastCheckpoint (Event.snapshotWrite ST.output ::
        Event.checkpointWrite branch (mkCheckpoint now c) :: q') =
        (lastCheckpoint q').or (some (branch, mkCheckpoint now c)) := by
      show List.foldl (fun acc e =>
        match e with
        | Event.checkpointWrite b bs => some (b, bs)
        | _ => acc) (some (branch, mkCheckpoint now c)) q' = _
      exact lastCheckpoint_go q' _
    have hsnp : lastSnapshot (Event.snapshotWrite ST.output ::
        Event.checkpointWrite branch (mkCheckpoint now c) :: q') =
        (lastSnapshot q').or (some ST.output) := by
      show List.foldl (fun acc e =>
        match e with
        | Event.snapshotWrite o => some o
        | _ => acc) (some ST.output) q' = _
      exact lastSnapshot_go q' _
    rw [hckp] at hck
    cases hlq : lastCheckpoint q' with
    | some x =>
      rw [hlq] at hck
      simp only [Option.or, Option.some.injEq] at hck
      rw [hck] at hlq
      obtain ⟨out, ho, hreq⟩ := ih ST (done ++ [c]) hinv' hsub' q' hq' b bs hlq
        h hsha
      refine ⟨out, ?_, ?_⟩
      · rw [hsnp, ho]
        simp only [Option.or]
      · have hl : done ++ c :: m' = (done ++ [c]) ++ m' := by simp
        rw [hl]
        exact hreq
    | none =>
      rw [hlq] at hck
      simp only [Option.or, Option.some.injEq, Prod.mk.injEq] at hck
      obtain ⟨hb, hbs⟩ := hck
      rw [← hbs] at hsha
      have hch : c.hash = h := by
        simp only [mkCheckpoint, Option.some.injEq] at hsha
        exact hsha
      have hct : commitsThrough h (done ++ c :: m') <+: done ++ [c] :=
        commitsThrough_prefix_self h done c m' hch
      have hreq' : requiredKeys pats diffOf branch (done ++ c :: m') h ⊆
          ST.output.findings.map makeFindingKey := by
        intro k hk
        apply hsub'
        simp only [requiredKeys, List.mem_map, List.mem_flatMap] at hk ⊢
        obtain ⟨f, ⟨a, ha, hfa⟩, rfl⟩ := hk
        exact ⟨f, ⟨a, hct.subset ha, hfa⟩, rfl⟩
      cases hls : lastSnapshot q' with
      | some o =>
        have hmem : Event.snapshotWrite o ∈
            traceOf repoUrl branch now pats diffOf ST m' :=
          hq'.subset (lastSnapshot_mem q' hls)
        have hmono := traceOf_snap_mono repoUrl branch now pats diffOf m' ST o hmem
        refine ⟨o, ?_, fun k hk => hmono (hreq' hk)⟩
        rw [hsnp, hls]
        simp only [Option.or]
      | none =>
        refine ⟨ST.output, ?_, hreq'⟩
        rw [hsnp, hls]
        simp only [Option.or]

end SecretScanner

namespace SecretScanner

/-- **C7.** For every commit it processes, `scanBranch` appends that commit's
findings to the in-memory report and persists the output snapshot
(`persistOutputSnapshot`) strictly before it writes the commit's checkpoint
(`saveBranchState`). Hence the walk's effect trace is crash-safe: at every
prefix of the trace (crash point), whenever the most recent checkpoint write
records `lastProcessedSha = h`, a snapshot write already precedes it whose
persisted findings contain (up to deduplication) every finding of every
commit up to and including `h` in the walk order — the checkpoint never runs
ahead of the findings file. -/
theorem c7_snapshot_before_checkpoint (repoUrl branch now : String)
    (pats : List LeakPattern) (diffOf : String → String) (maxC : Nat)
    (cs : List Commit) (ls : Option String) (st0 : ScannerState)
    (hev : st0.events = [])
    (hinv : st0.keySet = st0.output.findings.map makeFindingKey) :
    SafeTrace pats diffOf branch cs
      ((scanBranchLoop repoUrl branch now pats diffOf maxC cs 0 ls [] []
        st0).st.events) := by
  have hst : (scanBranchLoop repoUrl branch now pats diffOf maxC cs 0 ls [] []
      st0).st = (cs.take maxC).foldl (stepCommit repoUrl branch now pats diffOf)
      st0 := by
    rw [scanBranchLoop_run]
  rw [hst, foldStep_events, hev, List.nil_append]
  intro p hp b bs hck h hsha
  have hmemck : Event.checkpointWrite b bs ∈
      traceOf repoUrl branch now pats diffOf st0 (cs.take maxC) :=
    hp.subset (lastCheckpoint_mem p hck)
  obtain ⟨hb, c, hcmem, hbs⟩ := ckpt_mem_traceOf repoUrl branch now pats diffOf
    (cs.take maxC) st0 b bs hmemck
  have hch : c.hash = h := by
    rw [hbs] at hsha
    simp only [mkCheckpoint, Option.some.injEq] at hsha
    exact hsha
  obtain ⟨out, ho, hreq⟩ := traceOf_safe repoUrl branch now pats diffOf
    (cs.take maxC) st0 [] hinv (by simp) p hp b bs hck h hsha
  rw [List.nil_append] at hreq
  refine ⟨out, ho, ?_⟩
  have hmemh : h ∈ (cs.take maxC).map Commit.hash :=
    List.mem_map.mpr ⟨c, hcmem, hch⟩
  have h1 : commitsThrough h cs = commitsThrough h (cs.take maxC) := by
    conv_lhs => rw [← List.take_append_drop maxC cs]
    exact commitsThrough_append_left h (cs.take maxC) (cs.drop maxC) hmemh
  have hcs : requiredKeys pats diffOf branch cs h =
      requiredKeys pats diffOf branch (cs.take maxC) h := by
    simp only [requiredKeys, h1]
  rw [hcs]
  exact hreq

end SecretScanner

namespace SecretScanner

theorem c7_snapshot_before_checkpoint_witness :
    (freshScanner "r").events = [] ∧
    (freshScanner "r").keySet =
      (freshScanner "r").output.findings.map makeFindingKey ∧
    SafeTrace [] (fun _ => "") "b" [(⟨"h1", "a", "e", "d"⟩ : Commit)]
      ((scanBranchLoop "r" "b" "t" [] (fun _ => "") 5
        [(⟨"h1", "a", "e", "d"⟩ : Commit)] 0 none [] []
        (freshScanner "r")).st.events) :=
  ⟨rfl, rfl,
    c7_snapshot_before_checkpoint "r" "b" "t" [] (fun _ => "") 5
      [(⟨"h1", "a", "e", "d"⟩ : Commit)] none (freshScanner "r") rfl rfl⟩

end SecretScanner
